import Mathlib

/-!
# libnode HTTP parser adapter

A shallow embedding of `class Parser` of `src/http/parser.h`: the object that
sits on top of the byte tokenizer (`http_parser`), reassembles header
fragments, builds an `IncomingMessage` at headers-complete and routes body
chunks to it.

Conventions of the embedding

* a libj smart pointer (`String::CPtr`, `IncomingMessage::Ptr`, ...) is an
  `Option`: the null pointer is `none`; dereferencing a null pointer, a failed
  `assert` and an array slot outside the array make a callback return `none`;
* `String::create(at, String::UTF8, len)` is the decoded fragment, a `String`;
* `Size` (`size_t`) is a natural number; libj's `Int` is a signed integer of a
  fixed number of bits, and where a `size_t` is returned as an `Int` (the
  result of `execute`) the conversion wraps, see `Parser.toLibjInt`;
* `getCPtr<String>(i)` of a `JsArray` returns the pointer it finds in slot `i`
  by value: assigning to the result of the call does not write the array;
* calls made on collaborators are recorded: every operation invoked on an
  `IncomingMessage` is appended to its `calls`, every invocation of the
  upstream callback is appended to the adapter's `incomingLog`.
-/

namespace libnode

/-- The bytes of a `Buffer` (libnode/buffer.h). -/
abbrev Buffer := List Nat

/-- A libj `Value`: what a `JsArray`, a `LinkedList` or a `JsFunction` result holds. -/
inductive Value where
  | undefined
  | boolean (b : Bool)
  | int (n : Int)
  | string (s : String)
  | buffer (b : Buffer)
deriving DecidableEq, Repr

/-- The socket handle; the adapter only ever asks whether it is readable. -/
structure Socket where
  readable : Bool
deriving DecidableEq, Repr

namespace http

/-- Modelled from the spec: the flags of `IncomingMessage` the adapter touches
(section 6.2, `setFlag(UPGRADE | COMPLETE)`, `unsetFlag(READABLE)`,
`hasFlag(PAUSED | UPGRADE)`); `incoming_message.h` is not among the sources. -/
inductive MsgFlag where
  | READABLE
  | PAUSED
  | COMPLETE
  | UPGRADE
deriving DecidableEq, Repr

/-- An operation invoked on an `IncomingMessage`, as recorded in its `calls`. -/
inductive Call where
  | setUrl (url : Option String)
  | setHttpVersion (ver : String)
  | addHeaderLine (name value : Option String)
  | setMethod (method : Option String)
  | setStatusCode (code : Int)
  | setFlag (f : MsgFlag)
  | unsetFlag (f : MsgFlag)
  | emitData (buf : Buffer)
  | emitEnd
deriving DecidableEq, Repr

/-- Modelled from the spec: `IncomingMessage` (`incoming_message.h` is not among
the sources), as far as the adapter drives it (section 6.2): the values given by
its setters, its four flags, its pending queue, and the record of the
operations invoked on it, oldest first. -/
structure IncomingMessage where
  socket : Option Socket
  url : Option String
  httpVersion : Option String
  method : Option String
  statusCode : Option Int
  readable : Bool
  paused : Bool
  complete : Bool
  upgrade : Bool
  pendings : List Value
  calls : List Call
deriving DecidableEq, Repr

namespace IncomingMessage

/-- Modelled from the spec: `IncomingMessage::create(socket)`, a fresh message on
which nothing has been called yet. -/
def create (socket : Option Socket) : IncomingMessage :=
  { socket := socket, url := none, httpVersion := none, method := none,
    statusCode := none, readable := true, paused := false, complete := false,
    upgrade := false, pendings := [], calls := [] }

/-- Modelled from the spec: `setUrl`. -/
def setUrl (m : IncomingMessage) (url : Option String) : IncomingMessage :=
  { m with url := url, calls := m.calls ++ [Call.setUrl url] }

/-- Modelled from the spec: `setHttpVersion`. -/
def setHttpVersion (m : IncomingMessage) (ver : String) : IncomingMessage :=
  { m with httpVersion := some ver, calls := m.calls ++ [Call.setHttpVersion ver] }

/-- Modelled from the spec: `addHeaderLine(name, value)`; the line is recorded. -/
def addHeaderLine (m : IncomingMessage) (name value : Option String) : IncomingMessage :=
  { m with calls := m.calls ++ [Call.addHeaderLine name value] }

/-- Modelled from the spec: `setMethod`. -/
def setMethod (m : IncomingMessage) (method : Option String) : IncomingMessage :=
  { m with method := method, calls := m.calls ++ [Call.setMethod method] }

/-- Modelled from the spec: `setStatusCode`. -/
def setStatusCode (m : IncomingMessage) (code : Int) : IncomingMessage :=
  { m with statusCode := some code, calls := m.calls ++ [Call.setStatusCode code] }

/-- Modelled from the spec: `hasFlag`. -/
def hasFlag (m : IncomingMessage) (f : MsgFlag) : Bool :=
  match f with
  | MsgFlag.READABLE => m.readable
  | MsgFlag.PAUSED => m.paused
  | MsgFlag.COMPLETE => m.complete
  | MsgFlag.UPGRADE => m.upgrade

/-- Flag store shared by `setFlag` and `unsetFlag`. -/
def writeFlag (m : IncomingMessage) (f : MsgFlag) (b : Bool) : IncomingMessage :=
  match f with
  | MsgFlag.READABLE => { m with readable := b }
  | MsgFlag.PAUSED => { m with paused := b }
  | MsgFlag.COMPLETE => { m with complete := b }
  | MsgFlag.UPGRADE => { m with upgrade := b }

/-- Modelled from the spec: `setFlag`. -/
def setFlag (m : IncomingMessage) (f : MsgFlag) : IncomingMessage :=
  { writeFlag m f true with calls := m.calls ++ [Call.setFlag f] }

/-- Modelled from the spec: `unsetFlag`. -/
def unsetFlag (m : IncomingMessage) (f : MsgFlag) : IncomingMessage :=
  { writeFlag m f false with calls := m.calls ++ [Call.unsetFlag f] }

/-- Modelled from the spec: `getPendings()->push(v)`, which appends to the
pending queue of the message. -/
def pushPending (m : IncomingMessage) (v : Value) : IncomingMessage :=
  { m with pendings := m.pendings ++ [v] }

/-- Modelled from the spec: `emitData(buffer)`; the emission is recorded. -/
def emitData (m : IncomingMessage) (buf : Buffer) : IncomingMessage :=
  { m with calls := m.calls ++ [Call.emitData buf] }

/-- Modelled from the spec: `emitEnd()`; the emission is recorded. -/
def emitEnd (m : IncomingMessage) : IncomingMessage :=
  { m with calls := m.calls ++ [Call.emitEnd] }

/-- The header lines added to a message so far, in call order. -/
def headerLines (m : IncomingMessage) : List (Option String × Option String) :=
  m.calls.filterMap fun c =>
    match c with
    | Call.addHeaderLine n v => some (n, v)
    | _ => none

/-- The buffers passed to `emitData` so far, in call order. -/
def emittedData (m : IncomingMessage) : List Buffer :=
  m.calls.filterMap fun c =>
    match c with
    | Call.emitData b => some b
    | _ => none

/-- How many times `emitEnd` has been called. -/
def emitEndCount (m : IncomingMessage) : Nat :=
  m.calls.count Call.emitEnd

end IncomingMessage

/-- The upstream callback `onIncoming_`: called with the message and the
keep-alive flag, it returns a `Value`, and leaves the message (which it shares
with the adapter) in some state. -/
structure JsFunction where
  call : IncomingMessage → Bool → Value × IncomingMessage

/-- The `enum http_parser_type` of the tokenizer. -/
inductive http_parser_type where
  | HTTP_REQUEST
  | HTTP_RESPONSE
  | HTTP_BOTH
deriving DecidableEq, Repr

/-- The `enum http_method` of the tokenizer: the eight values the adapter
names, and every other value by its number. -/
inductive http_method where
  | HTTP_DELETE
  | HTTP_GET
  | HTTP_HEAD
  | HTTP_POST
  | HTTP_PUT
  | HTTP_CONNECT
  | HTTP_OPTIONS
  | HTTP_TRACE
  | HTTP_OTHER (code : Nat)
deriving DecidableEq, Repr

/-- The fields of the tokenizer struct (`struct http_parser` in `http_parser.h`)
that the adapter reads, and the answer of `http_should_keep_alive(parser)`. -/
structure http_parser_t where
  type : http_parser_type
  method : http_method
  status_code : Nat
  http_major : Nat
  http_minor : Nat
  upgrade : Bool
  should_keep_alive : Bool
deriving DecidableEq, Repr

/-- The private `enum Flag` of `Parser`. -/
inductive Flag where
  | HAVE_FLUSHED
  | UPGRADE
  | SHOULD_KEEP_ALIVE
deriving DecidableEq, Repr

/-- The bit of a flag: `1 << 0`, `1 << 1`, `1 << 2`. -/
def Flag.bit : Flag → Nat
  | Flag.HAVE_FLUSHED => 1 <<< 0
  | Flag.UPGRADE => 1 <<< 1
  | Flag.SHOULD_KEEP_ALIVE => 1 <<< 2

/-- The adapter state: the data members of `class Parser`, and `incomingLog`,
the record of the invocations of `onIncoming_` (message passed, keep-alive
argument), oldest first. -/
structure Parser where
  flags_ : Nat
  parser_ : http_parser_t
  url_ : Option String
  method_ : Option String
  majorVer_ : Int
  minorVer_ : Int
  statusCode_ : Int
  maxHeaderPairs_ : Nat
  fields_ : List (Option String)
  values_ : List (Option String)
  socket_ : Option Socket
  incoming_ : Option IncomingMessage
  onIncoming_ : Option JsFunction
  incomingLog : List (IncomingMessage × Bool)

namespace Parser

/-- Modelled from the spec: `setFlag` of `LIBNODE_FLAG_METHODS(Flag, flags_)`
(`flag.h` is not among the sources): sets the bit of the flag in the bitfield. -/
def setFlag (self : Parser) (f : Flag) : Parser :=
  { self with flags_ := self.flags_ ||| f.bit }

/-- Modelled from the spec: `hasFlag` of `LIBNODE_FLAG_METHODS(Flag, flags_)`
(`flag.h` is not among the sources): whether the bit of the flag is set. -/
def hasFlag (self : Parser) (f : Flag) : Bool :=
  self.flags_ &&& f.bit != 0

/-- The tokenizer struct as `http_parser_init(&parser_, type)` leaves it. -/
def http_parser_init (type : http_parser_type) : http_parser_t :=
  { type := type, method := http_method.HTTP_DELETE, status_code := 0,
    http_major := 0, http_minor := 0, upgrade := false, should_keep_alive := false }

/-- The constructor `Parser(type)`. It gives no value to `majorVer_`,
`minorVer_` and `statusCode_`, so what they hold at first is an argument here;
the three pointers `socket_`, `incoming_` and `onIncoming_` start out null. -/
def create (type : http_parser_type) (majorVer minorVer statusCode : Int) : Parser :=
  { flags_ := 0
    parser_ := http_parser_init type
    url_ := none
    method_ := none
    majorVer_ := majorVer
    minorVer_ := minorVer
    statusCode_ := statusCode
    maxHeaderPairs_ := 0
    fields_ := []
    values_ := []
    socket_ := none
    incoming_ := none
    onIncoming_ := none
    incomingLog := [] }

/-- The macro `LIBNODE_STR_UPDATE(STR, AT, LEN)`: the new content of `STR`. -/
def LIBNODE_STR_UPDATE (str : Option String) (frag : String) : Option String :=
  match str with
  | none => some frag
  | some s => some (s ++ frag)

/-- Modelled from the spec: `getCPtr<String>(i)` of `JsArray` read as a value
(the declaration of `JsArray` is not among the sources); a slot outside the
array reads as null. -/
def getCPtr (arr : List (Option String)) (i : Nat) : Option String :=
  arr.getD i none

/-- The macro `LIBNODE_STR_UPDATE(arr->getCPtr<String>(i), at, len)` of
`parser.h:66-71`, as `onHeaderField` and `onHeaderValue` apply it to slot `i`
of a `JsArray`. Here `STR` is the call `arr->getCPtr<String>(i)`: the macro
tests the pointer the call returns and assigns the new string to the pointer
the call returns, which is a temporary. No setter of the array is called, so
the new string is dropped and the array is left as it is. A slot outside the
array fails. -/
def updateTemporary (arr : List (Option String)) (i : Nat) (frag : String) :
    Option (List (Option String)) :=
  if i < arr.length then
    let _dropped := LIBNODE_STR_UPDATE (getCPtr arr i) frag
    some arr
  else
    none

/-- The static callback `onMessageBegin`. -/
def onMessageBegin (self : Parser) : Parser × Int :=
  ({ self with url_ := none, fields_ := [], values_ := [] }, 0)

/-- The static callback `onUrl`. -/
def onUrl (self : Parser) (frag : String) : Parser × Int :=
  ({ self with url_ := LIBNODE_STR_UPDATE self.url_ frag }, 0)

/-- The static callback `onHeaderField`. -/
def onHeaderField (self : Parser) (frag : String) : Option (Parser × Int) :=
  let numFields := self.fields_.length
  let numValues := self.values_.length
  let fields := if numFields == numValues then self.fields_ ++ [none] else self.fields_
  if fields.length == numValues + 1 then
    (updateTemporary fields numValues frag).map fun fs => ({ self with fields_ := fs }, 0)
  else
    none

/-- The static callback `onHeaderValue`. The slot index is `numFields - 1` in
`Size`, which is unsigned: with no field it lies outside the array. -/
def onHeaderValue (self : Parser) (frag : String) : Option (Parser × Int) :=
  let numFields := self.fields_.length
  let numValues := self.values_.length
  let values := if numValues != numFields then self.values_ ++ [none] else self.values_
  if values.length == numFields then
    if numFields == 0 then
      none
    else
      (updateTemporary values (numFields - 1) frag).map fun vs => ({ self with values_ := vs }, 0)
  else
    none

end Parser

/-- A header callback of the tokenizer with the fragment it delivers. -/
inductive HeaderEvent where
  | field (frag : String)
  | value (frag : String)
deriving DecidableEq, Repr

/-- One header callback run on the adapter. -/
def headerStep (self : Parser) (ev : HeaderEvent) : Option Parser :=
  match ev with
  | HeaderEvent.field frag => (Parser.onHeaderField self frag).map Prod.fst
  | HeaderEvent.value frag => (Parser.onHeaderValue self frag).map Prod.fst

/-- A sequence of header callbacks run in order; `none` as soon as one fails. -/
def runHeaders (self : Parser) : List HeaderEvent → Option Parser
  | [] => some self
  | ev :: rest => (headerStep self ev).bind fun p => runHeaders p rest

/-- The tokenizer contract on header callbacks: every `on_header_value` of the
sequence has an `on_header_field` somewhere before it. -/
def ValuesPreceded (evs : List HeaderEvent) : Prop :=
  ∀ (i : Nat) (frag : String), evs[i]? = some (HeaderEvent.value frag) →
    ∃ (j : Nat) (g : String), j < i ∧ evs[j]? = some (HeaderEvent.field g)

/-- The callbacks that deliver one header line: its name fragments, then its
value fragments. -/
def lineEvents (line : List String × List String) : List HeaderEvent :=
  line.1.map HeaderEvent.field ++ line.2.map HeaderEvent.value

/-- The callbacks that deliver a list of header lines, line after line. -/
def linesEvents (lines : List (List String × List String)) : List HeaderEvent :=
  (lines.map lineEvents).flatten

/-- Fragments put back together, first to last. -/
def concatFrags (frags : List String) : String :=
  frags.foldl (fun acc f => acc ++ f) ""

/-- The same header lines with every name and every value in one piece. -/
def unsplit (lines : List (List String × List String)) : List (List String × List String) :=
  lines.map fun l => ([concatFrags l.1], [concatFrags l.2])

/-- The states the header callbacks of one message start from: a freshly
constructed `Parser`, or an adapter right after `on_message_begin`. -/
def StartOfHeaders (p : Parser) : Prop :=
  (∃ (type : http_parser_type) (a b c : Int), p = Parser.create type a b c) ∨
    (∃ q : Parser, p = (Parser.onMessageBegin q).1)

namespace Parser

/-- Modelled from the spec: the `StringBuffer` filled by `append(majorVer_)`,
`appendChar('.')`, `append(minorVer_)` and read by `toString()` (the
declaration of `StringBuffer` is not among the sources): the two numbers in
decimal with a dot between them, the version string of section 4.1 step 6. -/
def httpVer (majorVer minorVer : Int) : String :=
  toString majorVer ++ "." ++ toString minorVer

/-- The loop `for (Size i = 0; i < n; i++) incoming_->addHeaderLine(fields_[i], values_[i])`. -/
def addHeaderLines (incoming : IncomingMessage) (fields values : List (Option String))
    (n : Nat) : IncomingMessage :=
  (List.range n).foldl
    (fun m i => m.addHeaderLine (getCPtr fields i) (getCPtr values i)) incoming

/-- Modelled from the spec: libj `to<Boolean>(r, &skipBody)` (not among the
sources): `skipBody` takes the boolean held by `r`, and keeps its value when
`r` holds no boolean. -/
def toBoolean (r : Value) (skipBody : Bool) : Bool :=
  match r with
  | Value.boolean b => b
  | _ => skipBody

/-- The member function `onHeadersComplete()`; its `int` result is the
`Boolean skipBody`, so 1 or 0. -/
def onHeadersComplete (self : Parser) : Option (Parser × Int) :=
  let incoming := IncomingMessage.create self.socket_
  let incoming := incoming.setUrl self.url_
  let incoming := incoming.setHttpVersion (httpVer self.majorVer_ self.minorVer_)
  let n := self.fields_.length
  if self.values_.length == n then
    let n := if self.maxHeaderPairs_ == 0 then
        (if n < self.maxHeaderPairs_ then n else self.maxHeaderPairs_)
      else n
    let incoming := addHeaderLines incoming self.fields_ self.values_ n
    let self := { self with url_ := none, fields_ := [], values_ := [] }
    let incoming :=
      if self.method_.isSome then incoming.setMethod self.method_
      else incoming.setStatusCode self.statusCode_
    let incoming :=
      if self.hasFlag Flag.UPGRADE then incoming.setFlag MsgFlag.UPGRADE else incoming
    if !self.hasFlag Flag.UPGRADE then
      match self.onIncoming_ with
      | none => none
      | some f =>
        let keepAlive := self.hasFlag Flag.SHOULD_KEEP_ALIVE
        let r := f.call incoming keepAlive
        let skipBody := toBoolean r.1 false
        some ({ self with incoming_ := some r.2,
                          incomingLog := self.incomingLog ++ [(incoming, keepAlive)] },
              if skipBody then 1 else 0)
    else
      some ({ self with incoming_ := some incoming }, 0)
  else
    none

/-- The member function `onBody(buf)`. -/
def onBody (self : Parser) (buf : Buffer) : Option Parser :=
  match self.incoming_ with
  | none => none
  | some incoming =>
    if incoming.hasFlag MsgFlag.PAUSED || incoming.pendings.length != 0 then
      some { self with incoming_ := some (incoming.pushPending (Value.buffer buf)) }
    else
      some { self with incoming_ := some (incoming.emitData buf) }

/-- The trailer part of the member function `onMessageComplete()`: the block
`if (!fields_->isEmpty()) ...`, which adds the accumulated pairs to the message
and clears the accumulators. -/
def flushTrailers (self : Parser) (incoming : IncomingMessage) :
    Option (Parser × IncomingMessage) :=
  if !self.fields_.isEmpty then
    let n := self.fields_.length
    if self.values_.length == n then
      some ({ self with url_ := none, fields_ := [], values_ := [] },
            addHeaderLines incoming self.fields_ self.values_ n)
    else
      none
  else
    some (self, incoming)

/-- The end-of-stream part of the member function `onMessageComplete()`: the
block `if (!incoming_->hasFlag(IncomingMessage::UPGRADE)) ...`. -/
def endOfStream (incoming : IncomingMessage) : IncomingMessage :=
  if !incoming.hasFlag MsgFlag.UPGRADE then
    if incoming.hasFlag MsgFlag.PAUSED || incoming.pendings.length != 0 then
      incoming.pushPending (Value.int 0)
    else
      (incoming.unsetFlag MsgFlag.READABLE).emitEnd
  else incoming

/-- The member function `onMessageComplete()`: `COMPLETE` is set, the trailers
are flushed, the end of the stream is signalled, and the socket is asked
whether it is readable. -/
def onMessageComplete (self : Parser) : Option Parser :=
  match self.incoming_ with
  | none => none
  | some incoming =>
    let incoming := incoming.setFlag MsgFlag.COMPLETE
    (flushTrailers self incoming).bind fun st =>
      let incoming := endOfStream st.2
      match st.1.socket_ with
      | none => none
      | some _ => some { st.1 with incoming_ := some incoming }

/-- The interned method strings of the static `onHeadersComplete`, and
`String::create()` for every other method. -/
def methodString : http_method → String
  | http_method.HTTP_DELETE => "DELETE"
  | http_method.HTTP_GET => "GET"
  | http_method.HTTP_HEAD => "HEAD"
  | http_method.HTTP_POST => "POST"
  | http_method.HTTP_PUT => "PUT"
  | http_method.HTTP_CONNECT => "CONNECT"
  | http_method.HTTP_OPTIONS => "OPTIONS"
  | http_method.HTTP_TRACE => "TRACE"
  | http_method.HTTP_OTHER _ => ""

/-- The first part of the static callback `onHeadersComplete(http_parser*)`, up
to the call of the member function: it records the method or the status code,
the version, and the two flags. The tokenizer struct it is handed is `parser_`
of the adapter. -/
def Static.recordHeaders (self : Parser) : Parser :=
  let parser := self.parser_
  let self :=
    if parser.type == http_parser_type.HTTP_REQUEST then
      { self with method_ := some (methodString parser.method) }
    else if parser.type == http_parser_type.HTTP_RESPONSE then
      { self with statusCode_ := (parser.status_code : Int) }
    else self
  let self := { self with majorVer_ := (parser.http_major : Int),
                          minorVer_ := (parser.http_minor : Int) }
  let self := if parser.upgrade then self.setFlag Flag.UPGRADE else self
  if parser.should_keep_alive then self.setFlag Flag.SHOULD_KEEP_ALIVE else self

/-- The static callback `onHeadersComplete(http_parser*)`:
`return self->onHeadersComplete() ? 1 : 0`. -/
def Static.onHeadersComplete (self : Parser) : Option (Parser × Int) :=
  (Parser.onHeadersComplete (Static.recordHeaders self)).map
    fun r => (r.1, if r.2 != 0 then 1 else 0)

/-- The number of header lines the member function `onHeadersComplete()` adds:
`n` after `if (!maxHeaderPairs_) n = n < maxHeaderPairs_ ? n : maxHeaderPairs_`. -/
def headerLineCount (self : Parser) : Nat :=
  if self.maxHeaderPairs_ == 0 then
    (if self.fields_.length < self.maxHeaderPairs_ then self.fields_.length
     else self.maxHeaderPairs_)
  else self.fields_.length

/-- The message as the member function `onHeadersComplete()` has filled it when
it reaches the test of the `UPGRADE` flag: url, version, header lines, and the
method or the status code. -/
def populated (self : Parser) : IncomingMessage :=
  let incoming := IncomingMessage.create self.socket_
  let incoming := incoming.setUrl self.url_
  let incoming := incoming.setHttpVersion (httpVer self.majorVer_ self.minorVer_)
  let incoming := addHeaderLines incoming self.fields_ self.values_ (headerLineCount self)
  if self.method_.isSome then incoming.setMethod self.method_
  else incoming.setStatusCode self.statusCode_

/-- The static callback `onBody(http_parser*, at, length)`; `buf` is
`Buffer::create(at, length)`. -/
def Static.onBody (self : Parser) (buf : Buffer) : Option (Parser × Int) :=
  (Parser.onBody self buf).map fun p => (p, 0)

/-- The static callback `onMessageComplete(http_parser*)`. -/
def Static.onMessageComplete (self : Parser) : Option (Parser × Int) :=
  (Parser.onMessageComplete self).map fun p => (p, 0)

end Parser

/-- A callback of the tokenizer, with what it delivers. At `headersComplete`
the tokenizer has brought its struct to `tok` before it calls back. -/
inductive Event where
  | messageBegin
  | url (frag : String)
  | headerField (frag : String)
  | headerValue (frag : String)
  | headersComplete (tok : http_parser_t)
  | body (buf : Buffer)
  | messageComplete

/-- One callback run on the adapter: the adapter after it, and the `int` the
callback hands back to the tokenizer. -/
def step (self : Parser) (ev : Event) : Option (Parser × Int) :=
  match ev with
  | Event.messageBegin => some (Parser.onMessageBegin self)
  | Event.url frag => some (Parser.onUrl self frag)
  | Event.headerField frag => Parser.onHeaderField self frag
  | Event.headerValue frag => Parser.onHeaderValue self frag
  | Event.headersComplete tok => Parser.Static.onHeadersComplete { self with parser_ := tok }
  | Event.body buf => Parser.Static.onBody self buf
  | Event.messageComplete => Parser.Static.onMessageComplete self

/-- A sequence of callbacks run in order; `none` as soon as one fails. -/
def run (self : Parser) : List Event → Option Parser
  | [] => some self
  | ev :: rest => (step self ev).bind fun r => run r.1 rest

/-- An upstream callback that answers `false` (keep the body) and leaves the
message as it is. -/
def keepBody : JsFunction :=
  { call := fun m _ => (Value.boolean false, m) }

/-- An upstream callback that answers `true` (skip the body) and leaves the
message as it is. -/
def skipBodyCallback : JsFunction :=
  { call := fun m _ => (Value.boolean true, m) }

/-- A tokenizer struct at headers-complete of an HTTP/1.1 `GET` request, with
the given upgrade and keep-alive indications. -/
def getRequest (upgrade keepAlive : Bool) : http_parser_t :=
  { type := http_parser_type.HTTP_REQUEST, method := http_method.HTTP_GET,
    status_code := 0, http_major := 1, http_minor := 1,
    upgrade := upgrade, should_keep_alive := keepAlive }

/-- A request adapter as the constructor leaves it, with a socket and an
upstream callback in place. -/
def serverParser (onIncoming : JsFunction) : Parser :=
  { Parser.create http_parser_type.HTTP_REQUEST 0 0 0 with
    socket_ := some { readable := true }
    onIncoming_ := some onIncoming }

/-- The `addHeaderLine` calls the trailer part of `onMessageComplete()` makes:
one for each accumulated pair, in order. -/
def trailerCalls (self : Parser) : List Call :=
  (List.range self.fields_.length).map
    (fun i => Call.addHeaderLine (Parser.getCPtr self.fields_ i) (Parser.getCPtr self.values_ i))

/-- A message that is paused and has nothing queued, emitted or set. -/
def pausedMessage : IncomingMessage :=
  { IncomingMessage.create none with paused := true }

/-- Whether the event is an `on_headers_complete` at which the tokenizer struct
has type `HTTP_REQUEST`. -/
def Event.isRequestHeaders : Event → Bool
  | Event.headersComplete tok => tok.type == http_parser_type.HTTP_REQUEST
  | _ => false

/-- The adapter `q` differs from `p` at most in `url_`, `fields_`, `values_`
and `incoming_`. -/
def Parser.SameSettings (p q : Parser) : Prop :=
  q.flags_ = p.flags_ ∧ q.parser_ = p.parser_ ∧ q.method_ = p.method_ ∧
  q.majorVer_ = p.majorVer_ ∧ q.minorVer_ = p.minorVer_ ∧
  q.statusCode_ = p.statusCode_ ∧ q.maxHeaderPairs_ = p.maxHeaderPairs_ ∧
  q.socket_ = p.socket_ ∧ q.onIncoming_ = p.onIncoming_ ∧
  q.incomingLog = p.incomingLog

/-- A header callback as an event of the whole callback surface. -/
def HeaderEvent.toEvent : HeaderEvent → Event
  | HeaderEvent.field frag => Event.headerField frag
  | HeaderEvent.value frag => Event.headerValue frag

/-- The consumer of the message pausing (`true`) or resuming (`false`) it
between two callbacks: the `PAUSED` flag of the message the adapter holds takes
the given value; the pending queue is left as it is (not drained). -/
def consumerSetsPaused (self : Parser) (paused : Bool) : Parser :=
  { self with incoming_ :=
      self.incoming_.map fun m => IncomingMessage.writeFlag m MsgFlag.PAUSED paused }

/-- The body phase of one message: each body chunk is delivered by `on_body`
after the consumer has set `PAUSED` to the value that comes with the chunk, and
`on_message_complete` follows after the consumer has set `PAUSED` to `last`. -/
def runBodyPhase (self : Parser) : List (Bool × Buffer) → Bool → Option Parser
  | [], last =>
    (Parser.Static.onMessageComplete (consumerSetsPaused self last)).map Prod.fst
  | (paused, buf) :: rest, last =>
    (Parser.Static.onBody (consumerSetsPaused self paused) buf).bind
      fun r => runBodyPhase r.1 rest last

theorem onHeaderField_open (p : Parser) (frag : String)
    (h : p.fields_.length = p.values_.length) :
    Parser.onHeaderField p frag
      = some ({ p with fields_ := p.fields_ ++ [none] }, 0) := by
  simp [Parser.onHeaderField, Parser.updateTemporary, h]

theorem onHeaderField_cont (p : Parser) (frag : String)
    (h : p.fields_.length = p.values_.length + 1) :
    Parser.onHeaderField p frag = some (p, 0) := by
  simp [Parser.onHeaderField, Parser.updateTemporary, h]

theorem onHeaderValue_open (p : Parser) (frag : String)
    (h : p.fields_.length = p.values_.length + 1) :
    Parser.onHeaderValue p frag
      = some ({ p with values_ := p.values_ ++ [none] }, 0) := by
  simp [Parser.onHeaderValue, Parser.updateTemporary, h]

theorem onHeaderValue_cont (p : Parser) (frag : String)
    (h : p.fields_.length = p.values_.length) (h1 : 1 ≤ p.fields_.length) :
    Parser.onHeaderValue p frag = some (p, 0) := by
  have hv : p.values_.length ≠ 0 := by omega
  have hne : ¬ p.values_ = [] := fun hnil => hv (by simp [hnil])
  have hlt : p.values_.length - 1 < p.values_.length := by omega
  simp [Parser.onHeaderValue, Parser.updateTemporary, h, hne, hlt]

theorem onHeaderField_ok (p : Parser) (frag : String)
    (h : p.fields_.length = p.values_.length ∨ p.fields_.length = p.values_.length + 1) :
    ∃ q, Parser.onHeaderField p frag = some (q, 0) ∧
      q.fields_.length = q.values_.length + 1 := by
  rcases h with h | h
  · simp [Parser.onHeaderField, Parser.updateTemporary, h]
  · simp [Parser.onHeaderField, Parser.updateTemporary, h]

theorem onHeaderValue_ok (p : Parser) (frag : String)
    (h : p.fields_.length = p.values_.length ∨ p.fields_.length = p.values_.length + 1)
    (h1 : 1 ≤ p.fields_.length) :
    ∃ q, Parser.onHeaderValue p frag = some (q, 0) ∧
      q.fields_.length = q.values_.length ∧ 1 ≤ q.fields_.length := by
  rcases h with h | h
  · have hv : p.values_.length ≠ 0 := by omega
    have hlt : p.values_.length - 1 < p.values_.length := by omega
    simp [Parser.onHeaderValue, Parser.updateTemporary, h, hv, hlt]
    omega
  · simp [Parser.onHeaderValue, Parser.updateTemporary, h]

/-! ## Header accumulator: sequences of callbacks -/

theorem runHeaders_append (p : Parser) (xs ys : List HeaderEvent) :
    runHeaders p (xs ++ ys) = (runHeaders p xs).bind fun q => runHeaders q ys := by
  induction xs generalizing p with
  | nil => simp [runHeaders]
  | cons x xs ih =>
    simp only [List.cons_append, runHeaders]
    cases headerStep p x with
    | none => simp
    | some q => simp [ih]

theorem runHeaders_inv (evs : List HeaderEvent) :
    ∀ p : Parser,
      (p.fields_.length = p.values_.length ∨ p.fields_.length = p.values_.length + 1) →
      (∀ f rest, evs = HeaderEvent.value f :: rest → 1 ≤ p.fields_.length) →
      ∃ q, runHeaders p evs = some q ∧ (evs = [] → q = p) ∧
        (∀ f, evs.getLast? = some (HeaderEvent.field f) →
          q.fields_.length = q.values_.length + 1) ∧
        (∀ f, evs.getLast? = some (HeaderEvent.value f) →
          q.fields_.length = q.values_.length) := by
  induction evs with
  | nil => intro p _ _; exact ⟨p, rfl, fun _ => rfl, by simp, by simp⟩
  | cons ev rest ih =>
    intro p hp hhead
    have hstep : ∃ p1, headerStep p ev = some p1 ∧
        (p1.fields_.length = p1.values_.length ∨ p1.fields_.length = p1.values_.length + 1) ∧
        1 ≤ p1.fields_.length ∧
        (∀ f, ev = HeaderEvent.field f → p1.fields_.length = p1.values_.length + 1) ∧
        (∀ f, ev = HeaderEvent.value f → p1.fields_.length = p1.values_.length) := by
      cases ev with
      | field f =>
        obtain ⟨q, hq, hlen⟩ := onHeaderField_ok p f hp
        exact ⟨q, by simp [headerStep, hq], Or.inr hlen, by omega, fun _ _ => hlen, by simp⟩
      | value f =>
        obtain ⟨q, hq, hlen, h1⟩ := onHeaderValue_ok p f hp (hhead f rest rfl)
        exact ⟨q, by simp [headerStep, hq], Or.inl hlen, h1, by simp, fun _ _ => hlen⟩
    obtain ⟨p1, hp1, hinv1, hone, hfld, hval⟩ := hstep
    obtain ⟨q, hq, hnil, hqf, hqv⟩ := ih p1 hinv1 (fun _ _ _ => hone)
    refine ⟨q, by simp [runHeaders, hp1, hq], by simp, ?_, ?_⟩
    · intro f hlast
      cases rest with
      | nil =>
        have hqp := hnil rfl
        simp at hlast
        rw [hqp]; exact hfld f hlast
      | cons r rs =>
        rw [List.getLast?_cons_cons] at hlast
        exact hqf f hlast
    · intro f hlast
      cases rest with
      | nil =>
        have hqp := hnil rfl
        simp at hlast
        rw [hqp]; exact hval f hlast
      | cons r rs =>
        rw [List.getLast?_cons_cons] at hlast
        exact hqv f hlast

theorem valuesPreceded_take (evs : List HeaderEvent) (h : ValuesPreceded evs) (k : Nat) :
    ValuesPreceded (evs.take k) := by
  intro i frag hi
  rw [List.getElem?_take] at hi
  split at hi
  · obtain ⟨j, g, hj, hg⟩ := h i frag hi
    refine ⟨j, g, hj, ?_⟩
    rw [List.getElem?_take]
    simp [show j < k by omega, hg]
  · simp at hi

theorem startOfHeaders_empty (p : Parser) (h : StartOfHeaders p) :
    p.fields_ = [] ∧ p.values_ = [] := by
  rcases h with ⟨t, a, b, c, rfl⟩ | ⟨q, rfl⟩
  · exact ⟨rfl, rfl⟩
  · exact ⟨rfl, rfl⟩

/-- C1. Header-accumulator invariant: from a freshly constructed `Parser`, or
right after `on_message_begin`, and for every sequence of `on_header_field` /
`on_header_value` callbacks in which each `on_header_value` has an
`on_header_field` before it, every callback succeeds, and at every callback
boundary (after each initial part of the sequence) `|fields| - |values|` is 0
or 1: it is 1 exactly when the last callback was `on_header_field`, and 0
exactly when it was `on_header_value` or there was none. -/
theorem header_accumulator_invariant (p0 : Parser) (hstart : StartOfHeaders p0)
    (evs : List HeaderEvent) (hcontract : ValuesPreceded evs) (k : Nat) :
    ∃ q, runHeaders p0 (evs.take k) = some q ∧
      (q.fields_.length = q.values_.length ∨ q.fields_.length = q.values_.length + 1) ∧
      (q.fields_.length = q.values_.length + 1 ↔
        ∃ f, (evs.take k).getLast? = some (HeaderEvent.field f)) ∧
      (q.fields_.length = q.values_.length ↔
        (evs.take k = [] ∨ ∃ f, (evs.take k).getLast? = some (HeaderEvent.value f))) := by
  obtain ⟨hf, hv⟩ := startOfHeaders_empty p0 hstart
  have hpre := valuesPreceded_take evs hcontract k
  generalize evs.take k = es at hpre
  have hhead : ∀ f rest, es = HeaderEvent.value f :: rest → 1 ≤ p0.fields_.length := by
    intro f rest hes
    obtain ⟨j, g, hj, _⟩ := hpre 0 f (by simp [hes])
    omega
  obtain ⟨q, hq, hnil, hqf, hqv⟩ := runHeaders_inv es p0 (by simp [hf, hv]) hhead
  refine ⟨q, hq, ?_, ?_, ?_⟩
  all_goals
    rcases hl : es.getLast? with _ | ev
    · have hes : es = [] := by simpa using hl
      have hqp := hnil hes
      subst hqp
      simp [hf, hv, hes]
    · have hne : es ≠ [] := by
        intro hes; simp [hes] at hl
      cases ev with
      | field f =>
        have := hqf f hl
        simp [hne, this]
      | value f =>
        have := hqv f hl
        simp [hne, this]

/-- Witness of C1: the callbacks field, field, value, field on a new request
parser, looked at after the first three. -/
theorem header_accumulator_invariant_witness :
    StartOfHeaders (Parser.create http_parser_type.HTTP_REQUEST 0 0 0) ∧
    ValuesPreceded [HeaderEvent.field "Ho", HeaderEvent.field "st",
      HeaderEvent.value "x", HeaderEvent.field "A"] ∧
    ∃ q, runHeaders (Parser.create http_parser_type.HTTP_REQUEST 0 0 0)
        ([HeaderEvent.field "Ho", HeaderEvent.field "st",
          HeaderEvent.value "x", HeaderEvent.field "A"].take 3) = some q ∧
      (q.fields_.length = q.values_.length ∨ q.fields_.length = q.values_.length + 1) ∧
      (q.fields_.length = q.values_.length + 1 ↔
        ∃ f, ([HeaderEvent.field "Ho", HeaderEvent.field "st",
          HeaderEvent.value "x", HeaderEvent.field "A"].take 3).getLast?
            = some (HeaderEvent.field f)) ∧
      (q.fields_.length = q.values_.length ↔
        ([HeaderEvent.field "Ho", HeaderEvent.field "st",
          HeaderEvent.value "x", HeaderEvent.field "A"].take 3 = [] ∨
         ∃ f, ([HeaderEvent.field "Ho", HeaderEvent.field "st",
          HeaderEvent.value "x", HeaderEvent.field "A"].take 3).getLast?
            = some (HeaderEvent.value f))) :=
  have hs : StartOfHeaders (Parser.create http_parser_type.HTTP_REQUEST 0 0 0) :=
    Or.inl ⟨_, _, _, _, rfl⟩
  have hc : ValuesPreceded [HeaderEvent.field "Ho", HeaderEvent.field "st",
      HeaderEvent.value "x", HeaderEvent.field "A"] := by
    intro i frag hi
    refine ⟨0, "Ho", ?_, rfl⟩
    rcases i with _ | i
    · simp at hi
    · omega
  ⟨hs, hc, header_accumulator_invariant _ hs _ hc 3⟩

/-! ## Header accumulator: what becomes of the fragments -/

theorem runHeaders_fields_cont (gs : List String) :
    ∀ p : Parser, p.fields_.length = p.values_.length + 1 →
      runHeaders p (gs.map HeaderEvent.field) = some p := by
  induction gs with
  | nil => intro p _; rfl
  | cons g gs ih =>
    intro p h
    simp only [List.map_cons, runHeaders, headerStep]
    rw [onHeaderField_cont p g h]
    simp only [Option.map_some', Option.some_bind]
    exact ih p h

theorem runHeaders_values_cont (gs : List String) :
    ∀ p : Parser, p.fields_.length = p.values_.length → 1 ≤ p.fields_.length →
      runHeaders p (gs.map HeaderEvent.value) = some p := by
  induction gs with
  | nil => intro p _ _; rfl
  | cons g gs ih =>
    intro p h h1
    simp only [List.map_cons, runHeaders, headerStep]
    rw [onHeaderValue_cont p g h h1]
    simp only [Option.map_some', Option.some_bind]
    exact ih p h h1

theorem runHeaders_line (p : Parser) (line : List String × List String)
    (hlen : p.fields_.length = p.values_.length)
    (hn : line.1 ≠ []) (hv : line.2 ≠ []) :
    runHeaders p (lineEvents line)
      = some { p with fields_ := p.fields_ ++ [none],
                      values_ := p.values_ ++ [none] } := by
  obtain ⟨ns, vs⟩ := line
  cases ns with
  | nil => exact absurd rfl hn
  | cons n ns =>
    cases vs with
    | nil => exact absurd rfl hv
    | cons v vs =>
      have hev : lineEvents (n :: ns, v :: vs)
          = HeaderEvent.field n ::
              (ns.map HeaderEvent.field ++ HeaderEvent.value v :: vs.map HeaderEvent.value) :=
        rfl
      rw [hev, runHeaders, headerStep, onHeaderField_open p n hlen]
      simp only [Option.map_some', Option.some_bind]
      rw [runHeaders_append,
        runHeaders_fields_cont ns { p with fields_ := p.fields_ ++ [none] } (by simp [hlen])]
      simp only [Option.some_bind]
      rw [runHeaders, headerStep, onHeaderValue_open _ v (by simp [hlen])]
      simp only [Option.map_some', Option.some_bind]
      rw [runHeaders_values_cont vs _ (by simp [hlen]) (by simp)]

theorem runHeaders_lines (lines : List (List String × List String)) :
    ∀ p : Parser, p.fields_.length = p.values_.length →
      (∀ l ∈ lines, l.1 ≠ [] ∧ l.2 ≠ []) →
      runHeaders p (linesEvents lines)
        = some { p with
            fields_ := p.fields_ ++ lines.map (fun _ => none),
            values_ := p.values_ ++ lines.map (fun _ => none) } := by
  induction lines with
  | nil => intro p _ _; simp [linesEvents, runHeaders]
  | cons l ls ih =>
    intro p hlen hne
    have hl := hne l (List.mem_cons_self _ _)
    have hls : ∀ x ∈ ls, x.1 ≠ [] ∧ x.2 ≠ [] := fun x hx => hne x (List.mem_cons_of_mem _ hx)
    have happ : linesEvents (l :: ls) = lineEvents l ++ linesEvents ls := by
      simp [linesEvents]
    rw [happ, runHeaders_append, runHeaders_line p l hlen hl.1 hl.2]
    simp only [Option.some_bind]
    rw [ih _ (by simp [hlen]) hls]
    simp

/-- C2. Header reassembly as the code has it. The line `Host: example.com`
delivered to a new adapter as the fragments `Ho`, `st` and ` exa`, `mple.com`
leaves `fields` and `values` holding one null slot each, not `Host` and
` example.com`; delivering the name and the value in one piece each does the
same; and a second `Host` line adds a second pair of null slots. The macro
assigns the new string to the temporary that `getCPtr<String>(i)` returns, so
no fragment reaches the arrays. -/
theorem header_fragments_lost :
    (runHeaders (Parser.create http_parser_type.HTTP_REQUEST 0 0 0)
        (linesEvents [(["Ho", "st"], [" exa", "mple.com"])])).map
      (fun q => (q.fields_, q.values_)) = some ([none], [none]) ∧
    (runHeaders (Parser.create http_parser_type.HTTP_REQUEST 0 0 0)
        (linesEvents (unsplit [(["Ho", "st"], [" exa", "mple.com"])]))).map
      (fun q => (q.fields_, q.values_)) = some ([none], [none]) ∧
    (runHeaders (Parser.create http_parser_type.HTTP_REQUEST 0 0 0)
        (linesEvents [(["Ho", "st"], [" exa", "mple.com"]), (["Host"], ["b"])])).map
      (fun q => (q.fields_, q.values_)) = some ([none, none], [none, none]) := by
  refine ⟨?_, ?_, ?_⟩
  · rfl
  · rfl
  · rfl

/-! ## Flags of the adapter -/

theorem and_two_pow_ne_zero (x k : Nat) : (x &&& 2 ^ k != 0) = x.testBit k := by
  have h : x &&& 2 ^ k = if x.testBit k then 2 ^ k else 0 := by
    apply Nat.eq_of_testBit_eq
    intro i
    rw [Nat.testBit_and, Nat.testBit_two_pow]
    by_cases hk : k = i
    · subst hk
      cases hx : x.testBit k <;> simp [Nat.testBit_two_pow]
    · cases hx : x.testBit k <;> simp [hk, Nat.testBit_two_pow]
  rw [h]
  cases hx : x.testBit k <;> simp

theorem hasFlag_upgrade (p : Parser) :
    p.hasFlag Flag.UPGRADE = p.flags_.testBit 1 := by
  have h := and_two_pow_ne_zero p.flags_ 1
  simpa [Parser.hasFlag, Flag.bit] using h

theorem hasFlag_keepAlive (p : Parser) :
    p.hasFlag Flag.SHOULD_KEEP_ALIVE = p.flags_.testBit 2 := by
  have h := and_two_pow_ne_zero p.flags_ 2
  simpa [Parser.hasFlag, Flag.bit] using h

/-! ## Header lines at headers-complete -/

theorem addHeaderLines_eq (m : IncomingMessage) (fields values : List (Option String))
    (n : Nat) :
    Parser.addHeaderLines m fields values n
      = { m with calls := (m.calls ++ (List.range n).map
          (fun i => Call.addHeaderLine (Parser.getCPtr fields i) (Parser.getCPtr values i))) } := by
  induction n with
  | zero => simp [Parser.addHeaderLines]
  | succ n ih =>
    unfold Parser.addHeaderLines at ih ⊢
    rw [List.range_succ, List.foldl_append, ih]
    simp [IncomingMessage.addHeaderLine]

theorem onHeadersComplete_upgraded (s : Parser)
    (hbal : s.fields_.length = s.values_.length) (hup : s.hasFlag Flag.UPGRADE = true) :
    Parser.onHeadersComplete s
      = some ({ s with url_ := none, fields_ := [], values_ := [],
                       incoming_ := some ((Parser.populated s).setFlag MsgFlag.UPGRADE) }, 0) := by
  simp only [Parser.hasFlag] at hup
  simp [Parser.onHeadersComplete, Parser.populated, Parser.headerLineCount, hbal,
    Parser.hasFlag, hup]

theorem onHeadersComplete_plain (s : Parser) (f : JsFunction)
    (hbal : s.fields_.length = s.values_.length) (hup : s.hasFlag Flag.UPGRADE = false)
    (hf : s.onIncoming_ = some f) :
    Parser.onHeadersComplete s
      = some ({ s with
          url_ := none, fields_ := [], values_ := [],
          incoming_ := some (f.call (Parser.populated s)
            (s.hasFlag Flag.SHOULD_KEEP_ALIVE)).2,
          incomingLog := s.incomingLog ++
            [(Parser.populated s, s.hasFlag Flag.SHOULD_KEEP_ALIVE)] },
        if Parser.toBoolean (f.call (Parser.populated s)
            (s.hasFlag Flag.SHOULD_KEEP_ALIVE)).1 false then 1 else 0) := by
  simp only [Parser.hasFlag] at hup
  simp [Parser.onHeadersComplete, Parser.populated, Parser.headerLineCount, hbal,
    Parser.hasFlag, hup, hf]

/-- C3. The cap at headers-complete as the code has it. A new request adapter
(`maxHeaderPairs_` is 0, which stands for no limit) that has accumulated the
pair `Host: x` calls `onIncoming` with a message on which `addHeaderLine` was
never called; and an adapter whose cap is 1 and that holds two pairs adds both
lines. -/
theorem headers_complete_cap_evaluated :
    ((run (serverParser keepBody)
        [Event.messageBegin, Event.headerField "Host", Event.headerValue "x",
         Event.headersComplete (getRequest false true)]).map
      fun q => (q.maxHeaderPairs_, q.incomingLog.map fun c => c.1.headerLines))
      = some (0, [[]]) ∧
    ((Parser.onHeadersComplete
        { serverParser keepBody with
          maxHeaderPairs_ := 1
          fields_ := [some "A", some "B"]
          values_ := [some "1", some "2"] }).map
      fun r => r.1.incomingLog.map fun c => c.1.headerLines)
      = some [[(some "A", some "1"), (some "B", some "2")]] := by
  constructor
  · rfl
  · rfl

/-! ## The result of `execute` -/

theorem recordHeaders_frame (p : Parser) :
    (Parser.Static.recordHeaders p).fields_ = p.fields_ ∧
    (Parser.Static.recordHeaders p).values_ = p.values_ ∧
    (Parser.Static.recordHeaders p).url_ = p.url_ ∧
    (Parser.Static.recordHeaders p).socket_ = p.socket_ ∧
    (Parser.Static.recordHeaders p).onIncoming_ = p.onIncoming_ ∧
    (Parser.Static.recordHeaders p).incomingLog = p.incomingLog ∧
    (Parser.Static.recordHeaders p).maxHeaderPairs_ = p.maxHeaderPairs_ ∧
    (Parser.Static.recordHeaders p).majorVer_ = (p.parser_.http_major : Int) ∧
    (Parser.Static.recordHeaders p).minorVer_ = (p.parser_.http_minor : Int) := by
  rcases p with ⟨fl, ⟨ty, me, sc, mj, mn, up, ka⟩, url, method, mjv, mnv, st, cap, fs, vs,
    sock, inc, onI, log⟩
  cases up <;> cases ka <;> cases ty <;> simp [Parser.Static.recordHeaders, Parser.setFlag]

theorem recordHeaders_upgrade (p : Parser) :
    (Parser.Static.recordHeaders p).hasFlag Flag.UPGRADE
      = (p.parser_.upgrade || p.hasFlag Flag.UPGRADE) := by
  have h21 : Nat.testBit 2 1 = true := by decide
  have h41 : Nat.testBit 4 1 = false := by decide
  rcases p with ⟨fl, ⟨ty, me, sc, mj, mn, up, ka⟩, url, method, mjv, mnv, st, cap, fs, vs,
    sock, inc, onI, log⟩
  cases up <;> cases ka <;> cases ty <;>
    simp [Parser.Static.recordHeaders, Parser.setFlag, hasFlag_upgrade, Flag.bit,
      Nat.testBit_or, h21, h41]

theorem recordHeaders_keepAlive (p : Parser) :
    (Parser.Static.recordHeaders p).hasFlag Flag.SHOULD_KEEP_ALIVE
      = (p.parser_.should_keep_alive || p.hasFlag Flag.SHOULD_KEEP_ALIVE) := by
  have h22 : Nat.testBit 2 2 = false := by decide
  have h42 : Nat.testBit 4 2 = true := by decide
  rcases p with ⟨fl, ⟨ty, me, sc, mj, mn, up, ka⟩, url, method, mjv, mnv, st, cap, fs, vs,
    sock, inc, onI, log⟩
  cases up <;> cases ka <;> cases ty <;>
    simp [Parser.Static.recordHeaders, Parser.setFlag, hasFlag_keepAlive, Flag.bit,
      Nat.testBit_or, h22, h42]

theorem static_onHeadersComplete_upgraded (p : Parser)
    (hbal : p.fields_.length = p.values_.length)
    (hup : (Parser.Static.recordHeaders p).hasFlag Flag.UPGRADE = true) :
    Parser.Static.onHeadersComplete p
      = some ({ Parser.Static.recordHeaders p with
                url_ := none, fields_ := [], values_ := [],
                incoming_ := some ((Parser.populated (Parser.Static.recordHeaders p)).setFlag
                  MsgFlag.UPGRADE) }, 0) := by
  obtain ⟨hf, hv, -⟩ := recordHeaders_frame p
  unfold Parser.Static.onHeadersComplete
  rw [onHeadersComplete_upgraded _ (by rw [hf, hv]; exact hbal) hup]
  simp

theorem static_onHeadersComplete_plain (p : Parser) (f : JsFunction)
    (hbal : p.fields_.length = p.values_.length)
    (hup : (Parser.Static.recordHeaders p).hasFlag Flag.UPGRADE = false)
    (hf : p.onIncoming_ = some f) :
    Parser.Static.onHeadersComplete p
      = some ({ Parser.Static.recordHeaders p with
          url_ := none, fields_ := [], values_ := [],
          incoming_ := some (f.call (Parser.populated (Parser.Static.recordHeaders p))
            ((Parser.Static.recordHeaders p).hasFlag Flag.SHOULD_KEEP_ALIVE)).2,
          incomingLog := p.incomingLog ++
            [(Parser.populated (Parser.Static.recordHeaders p),
              (Parser.Static.recordHeaders p).hasFlag Flag.SHOULD_KEEP_ALIVE)] },
        if Parser.toBoolean (f.call (Parser.populated (Parser.Static.recordHeaders p))
            ((Parser.Static.recordHeaders p).hasFlag Flag.SHOULD_KEEP_ALIVE)).1 false
        then 1 else 0) := by
  obtain ⟨hfl, hv, -, -, hon, hlog, -⟩ := recordHeaders_frame p
  unfold Parser.Static.onHeadersComplete
  rw [onHeadersComplete_plain _ f (by rw [hfl, hv]; exact hbal) hup (by rw [hon]; exact hf)]
  rw [hlog]
  split <;> simp_all

theorem populated_calls (s : Parser) :
    (Parser.populated s).calls
      = [Call.setUrl s.url_, Call.setHttpVersion (Parser.httpVer s.majorVer_ s.minorVer_)]
        ++ (List.range (Parser.headerLineCount s)).map
            (fun i => Call.addHeaderLine (Parser.getCPtr s.fields_ i) (Parser.getCPtr s.values_ i))
        ++ [if s.method_.isSome then Call.setMethod s.method_
            else Call.setStatusCode s.statusCode_] := by
  unfold Parser.populated
  simp only [addHeaderLines_eq]
  split <;> simp [IncomingMessage.setMethod, IncomingMessage.setStatusCode,
    IncomingMessage.setHttpVersion, IncomingMessage.setUrl, IncomingMessage.create]

theorem static_onBody_log (p q : Parser) (buf : Buffer) (r : Int)
    (h : Parser.Static.onBody p buf = some (q, r)) : q.incomingLog = p.incomingLog := by
  unfold Parser.Static.onBody Parser.onBody at h
  cases hi : p.incoming_ with
  | none => simp [hi] at h
  | some m =>
    simp only [hi] at h
    split at h <;> simp at h <;> rw [← h.1]

theorem static_onMessageComplete_log (p q : Parser) (r : Int)
    (h : Parser.Static.onMessageComplete p = some (q, r)) :
    q.incomingLog = p.incomingLog := by
  unfold Parser.Static.onMessageComplete Parser.onMessageComplete at h
  cases hi : p.incoming_ with
  | none => simp [hi] at h
  | some m =>
    simp only [hi, Option.map_eq_some', Option.bind_eq_some, Prod.mk.injEq] at h
    obtain ⟨q1, ⟨st, hst, hq1⟩, hq, _⟩ := h
    have hlog : st.1.incomingLog = p.incomingLog := by
      unfold Parser.flushTrailers at hst
      split_ifs at hst <;> simp at hst <;>
        first
        | (obtain ⟨_, hst⟩ := hst
           rw [← hst])
        | (rw [← hst])
    cases hs : st.1.socket_ with
    | none => simp [hs] at hq1
    | some s =>
      simp [hs] at hq1
      rw [← hq, ← hq1]
      exact hlog

theorem onHeaderField_log (p q : Parser) (frag : String) (r : Int)
    (h : Parser.onHeaderField p frag = some (q, r)) : q.incomingLog = p.incomingLog := by
  unfold Parser.onHeaderField at h
  simp only [] at h
  split_ifs at h <;>
    (simp only [Option.map_eq_some', Prod.mk.injEq] at h
     obtain ⟨fs, _, hq, _⟩ := h
     rw [← hq])

theorem onHeaderValue_log (p q : Parser) (frag : String) (r : Int)
    (h : Parser.onHeaderValue p frag = some (q, r)) : q.incomingLog = p.incomingLog := by
  unfold Parser.onHeaderValue at h
  simp only [] at h
  split_ifs at h <;>
    (simp only [Option.map_eq_some', Prod.mk.injEq] at h
     obtain ⟨fs, _, hq, _⟩ := h
     rw [← hq])

/-- C5 (as the code has it). With an upstream callback in place and the
accumulators balanced: at an `on_headers_complete` where the tokenizer reports
no upgrade and the `UPGRADE` flag of the adapter is not set from an earlier
message, `onIncoming` is called exactly once, with the message that has been
given its url, version, header lines and method or status code, and with the
`SHOULD_KEEP_ALIVE` flag; where the tokenizer reports upgrade or the flag is
still set, it is not called; and no other callback calls it. -/
theorem incoming_called_once (p : Parser) (f : JsFunction)
    (hf : p.onIncoming_ = some f) (hbal : p.fields_.length = p.values_.length) :
    (p.parser_.upgrade = false → p.hasFlag Flag.UPGRADE = false →
      ∃ q r, Parser.Static.onHeadersComplete p = some (q, r) ∧
        q.incomingLog = p.incomingLog ++
          [(Parser.populated (Parser.Static.recordHeaders p),
            (Parser.Static.recordHeaders p).hasFlag Flag.SHOULD_KEEP_ALIVE)] ∧
        (Parser.populated (Parser.Static.recordHeaders p)).calls
          = [Call.setUrl p.url_,
              Call.setHttpVersion
                (Parser.httpVer (p.parser_.http_major : Int) (p.parser_.http_minor : Int))]
            ++ (List.range (Parser.headerLineCount p)).map
                (fun i => Call.addHeaderLine (Parser.getCPtr p.fields_ i)
                  (Parser.getCPtr p.values_ i))
            ++ [if (Parser.Static.recordHeaders p).method_.isSome
                then Call.setMethod (Parser.Static.recordHeaders p).method_
                else Call.setStatusCode (Parser.Static.recordHeaders p).statusCode_]) ∧
    ((p.parser_.upgrade = true ∨ p.hasFlag Flag.UPGRADE = true) →
      ∃ q, Parser.Static.onHeadersComplete p = some (q, 0) ∧
        q.incomingLog = p.incomingLog) ∧
    (Parser.onMessageBegin p).1.incomingLog = p.incomingLog ∧
    (∀ frag, (Parser.onUrl p frag).1.incomingLog = p.incomingLog) ∧
    (∀ frag q r, Parser.onHeaderField p frag = some (q, r) →
      q.incomingLog = p.incomingLog) ∧
    (∀ frag q r, Parser.onHeaderValue p frag = some (q, r) →
      q.incomingLog = p.incomingLog) ∧
    (∀ buf q r, Parser.Static.onBody p buf = some (q, r) →
      q.incomingLog = p.incomingLog) ∧
    (∀ q r, Parser.Static.onMessageComplete p = some (q, r) →
      q.incomingLog = p.incomingLog) := by
  refine ⟨?_, ?_, rfl, fun _ => rfl, ?_, ?_, ?_, ?_⟩
  · intro hu hfl
    have hup : (Parser.Static.recordHeaders p).hasFlag Flag.UPGRADE = false := by
      rw [recordHeaders_upgrade, hu, hfl]; rfl
    refine ⟨_, _, static_onHeadersComplete_plain p f hbal hup hf, rfl, ?_⟩
    obtain ⟨hfs, hvs, hurl, -, -, -, hcap, hmj, hmn⟩ := recordHeaders_frame p
    rw [populated_calls, hurl, hmj, hmn, hfs, hvs]
    simp only [Parser.headerLineCount, hfs, hcap]
  · intro h
    have hup : (Parser.Static.recordHeaders p).hasFlag Flag.UPGRADE = true := by
      rw [recordHeaders_upgrade]
      rcases h with h | h <;> simp [h]
    refine ⟨_, static_onHeadersComplete_upgraded p hbal hup, ?_⟩
    exact (recordHeaders_frame p).2.2.2.2.2.1
  · intro frag q r h; exact onHeaderField_log p q frag r h
  · intro frag q r h; exact onHeaderValue_log p q frag r h
  · intro buf q r h; exact static_onBody_log p q buf r h
  · intro q r h; exact static_onMessageComplete_log p q r h

/-- Witness of C5: a `GET` request without upgrade on a new adapter; the
upstream callback is called once. -/
theorem incoming_called_once_witness :
    ∃ q r, Parser.Static.onHeadersComplete
        { serverParser keepBody with parser_ := getRequest false true } = some (q, r) ∧
      q.incomingLog.length = 1 := by
  obtain ⟨q, r, h, hlog, _⟩ :=
    (incoming_called_once { serverParser keepBody with parser_ := getRequest false true }
      keepBody rfl rfl).1 rfl rfl
  exact ⟨q, r, h, by rw [hlog]; rfl⟩

/-- Counterexample to C5 as stated: on one adapter, a first message for which
the tokenizer reports upgrade, then a second message for which it reports none.
At the second `on_headers_complete` the upstream callback is not called: the
record of its calls is still empty. -/
theorem incoming_not_called_after_upgrade :
    (getRequest false true).upgrade = false ∧
    (run (serverParser keepBody)
      [Event.messageBegin, Event.headersComplete (getRequest true true),
       Event.messageComplete,
       Event.messageBegin, Event.headersComplete (getRequest false true)]).map
      (fun q => q.incomingLog.length) = some 0 := by
  constructor
  · rfl
  · rfl

/-- C6. Upgrade handoff at headers-complete: whenever the tokenizer reports
upgrade at `on_headers_complete` (the accumulators being balanced), the
callback succeeds and returns 0, the new `IncomingMessage` now held by the
adapter has had `setFlag(UPGRADE)` called on it and has its `UPGRADE` flag set,
and `onIncoming` is not invoked. -/
theorem upgrade_handoff (p : Parser) (hup : p.parser_.upgrade = true)
    (hbal : p.fields_.length = p.values_.length) :
    ∃ q m, Parser.Static.onHeadersComplete p = some (q, 0) ∧
      q.incoming_ = some m ∧
      m = (Parser.populated (Parser.Static.recordHeaders p)).setFlag MsgFlag.UPGRADE ∧
      m.hasFlag MsgFlag.UPGRADE = true ∧
      Call.setFlag MsgFlag.UPGRADE ∈ m.calls ∧
      q.incomingLog = p.incomingLog := by
  have hflag : (Parser.Static.recordHeaders p).hasFlag Flag.UPGRADE = true := by
    rw [recordHeaders_upgrade, hup]; rfl
  refine ⟨_, _, static_onHeadersComplete_upgraded p hbal hflag, rfl, rfl, ?_, ?_, ?_⟩
  · simp [IncomingMessage.setFlag, IncomingMessage.hasFlag, IncomingMessage.writeFlag]
  · simp [IncomingMessage.setFlag]
  · exact (recordHeaders_frame p).2.2.2.2.2.1

/-- Witness of C6: an upgrade request on a new adapter that has no upstream
callback at all. -/
theorem upgrade_handoff_witness :
    ∃ q m, Parser.Static.onHeadersComplete
        { Parser.create http_parser_type.HTTP_REQUEST 0 0 0 with
          parser_ := getRequest true true } = some (q, 0) ∧
      q.incoming_ = some m ∧
      m = (Parser.populated (Parser.Static.recordHeaders
        { Parser.create http_parser_type.HTTP_REQUEST 0 0 0 with
          parser_ := getRequest true true })).setFlag MsgFlag.UPGRADE ∧
      m.hasFlag MsgFlag.UPGRADE = true ∧
      Call.setFlag MsgFlag.UPGRADE ∈ m.calls ∧
      q.incomingLog = [] :=
  upgrade_handoff
    { Parser.create http_parser_type.HTTP_REQUEST 0 0 0 with parser_ := getRequest true true }
    rfl rfl

/-- C10. Skip-body result: at an `on_headers_complete` for which the tokenizer
reports no upgrade (upstream callback in place, accumulators balanced) the
callback succeeds, and either the `UPGRADE` flag of the adapter is clear,
`onIncoming` is called once with the `SHOULD_KEEP_ALIVE` flag as it stands at
that moment, and the result is non-zero (namely 1) if and only if `onIncoming`
returned the boolean `true`, and 0 when it returned `false` or a value that is
no boolean; or the flag is still set from an earlier message, `onIncoming` is
not called and the result is 0. -/
theorem skip_body_result (p : Parser) (f : JsFunction)
    (hf : p.onIncoming_ = some f) (hbal : p.fields_.length = p.values_.length)
    (hup : p.parser_.upgrade = false) :
    ∃ q r, Parser.Static.onHeadersComplete p = some (q, r) ∧
      (((Parser.Static.recordHeaders p).hasFlag Flag.UPGRADE = false ∧
        ∃ m keepAlive,
          q.incomingLog = p.incomingLog ++ [(m, keepAlive)] ∧
          keepAlive = (Parser.Static.recordHeaders p).hasFlag Flag.SHOULD_KEEP_ALIVE ∧
          (r ≠ 0 ↔ (f.call m keepAlive).1 = Value.boolean true) ∧
          ((f.call m keepAlive).1 = Value.boolean true → r = 1) ∧
          ((f.call m keepAlive).1 ≠ Value.boolean true → r = 0)) ∨
       ((Parser.Static.recordHeaders p).hasFlag Flag.UPGRADE = true ∧
        p.hasFlag Flag.UPGRADE = true ∧
        q.incomingLog = p.incomingLog ∧ r = 0)) := by
  cases hflag : (Parser.Static.recordHeaders p).hasFlag Flag.UPGRADE with
  | false =>
    refine ⟨_, _, static_onHeadersComplete_plain p f hbal hflag hf, Or.inl ⟨rfl, _, _, rfl, rfl, ?_⟩⟩
    generalize (f.call (Parser.populated (Parser.Static.recordHeaders p))
      ((Parser.Static.recordHeaders p).hasFlag Flag.SHOULD_KEEP_ALIVE)).1 = v
    cases v with
    | boolean b => cases b <;> simp [Parser.toBoolean]
    | undefined => simp [Parser.toBoolean]
    | int n => simp [Parser.toBoolean]
    | string s => simp [Parser.toBoolean]
    | buffer b => simp [Parser.toBoolean]
  | true =>
    refine ⟨_, _, static_onHeadersComplete_upgraded p hbal hflag, Or.inr ⟨rfl, ?_, ?_, rfl⟩⟩
    · rw [recordHeaders_upgrade, hup] at hflag
      simpa using hflag
    · exact (recordHeaders_frame p).2.2.2.2.2.1

/-- Witness of C10: a `GET` request without upgrade on a new adapter whose
upstream callback answers `true`. -/
theorem skip_body_result_witness :
    ∃ q r, Parser.Static.onHeadersComplete
        { serverParser skipBodyCallback with parser_ := getRequest false true } = some (q, r) ∧
      r = 1 := by
  obtain ⟨q, r, h, hcase⟩ :=
    skip_body_result { serverParser skipBodyCallback with parser_ := getRequest false true }
      skipBodyCallback rfl rfl rfl
  refine ⟨q, r, h, ?_⟩
  rcases hcase with ⟨_, m, ka, _, _, _, hone, _⟩ | ⟨hflag, _⟩
  · exact hone rfl
  · exact absurd hflag (by decide)

/-! ## Body chunks and end of message -/

theorem run_append (p : Parser) (xs ys : List Event) :
    run p (xs ++ ys) = (run p xs).bind fun q => run q ys := by
  induction xs generalizing p with
  | nil => simp [run]
  | cons x xs ih =>
    simp only [List.cons_append, run]
    cases step p x with
    | none => simp
    | some r => simp [ih]

theorem static_onBody_queued (p : Parser) (m : IncomingMessage) (buf : Buffer)
    (hm : p.incoming_ = some m) (hq : m.paused = true ∨ m.pendings ≠ []) :
    Parser.Static.onBody p buf
      = some ({ p with incoming_ := some (m.pushPending (Value.buffer buf)) }, 0) := by
  rcases hq with hq | hq
  · simp [Parser.Static.onBody, Parser.onBody, hm, IncomingMessage.hasFlag, hq]
  · simp [Parser.Static.onBody, Parser.onBody, hm, IncomingMessage.hasFlag, hq]

theorem static_onBody_emitted (p : Parser) (m : IncomingMessage) (buf : Buffer)
    (hm : p.incoming_ = some m) (hp : m.paused = false) (hq : m.pendings = []) :
    Parser.Static.onBody p buf
      = some ({ p with incoming_ := some (m.emitData buf) }, 0) := by
  simp [Parser.Static.onBody, Parser.onBody, hm, IncomingMessage.hasFlag, hp, hq]

/-- C8. Body routing policy: for every body chunk and every state of the
`IncomingMessage` the adapter holds, `on_body` succeeds and returns 0; if
`PAUSED` is set or the pending queue is not empty it appends the chunk at the
end of the pending queue and calls nothing on the message; otherwise it calls
`emitData` with the chunk, once, and the pending queue stays empty. Nothing
else in the adapter or the message changes. -/
theorem body_routing (p : Parser) (m : IncomingMessage) (buf : Buffer)
    (hm : p.incoming_ = some m) :
    ∃ q m1, Parser.Static.onBody p buf = some (q, 0) ∧
      q = { p with incoming_ := some m1 } ∧
      ((m.hasFlag MsgFlag.PAUSED = true ∨ m.pendings.length ≠ 0) →
        m1 = { m with pendings := m.pendings ++ [Value.buffer buf] } ∧
        m1.calls = m.calls) ∧
      ((m.hasFlag MsgFlag.PAUSED = false ∧ m.pendings.length = 0) →
        m1 = { m with calls := m.calls ++ [Call.emitData buf] } ∧
        m1.pendings = [] ∧
        m1.emittedData = m.emittedData ++ [buf]) := by
  by_cases hq : m.paused = true ∨ m.pendings ≠ []
  · refine ⟨_, _, static_onBody_queued p m buf hm hq, rfl, fun _ => ⟨rfl, rfl⟩, ?_⟩
    rintro ⟨h1, h2⟩
    rcases hq with hq | hq
    · simp [IncomingMessage.hasFlag, hq] at h1
    · exact absurd (List.length_eq_zero.mp h2) hq
  · have hp : m.paused = false := by
      cases h : m.paused
      · rfl
      · exact absurd (Or.inl h) hq
    have hn : m.pendings = [] := by
      by_contra h
      exact hq (Or.inr h)
    refine ⟨_, _, static_onBody_emitted p m buf hm hp hn, rfl, ?_, fun _ => ⟨rfl, ?_, ?_⟩⟩
    · rintro (h | h)
      · simp [IncomingMessage.hasFlag, hp] at h
      · simp [hn] at h
    · simpa [IncomingMessage.emitData] using hn
    · simp [IncomingMessage.emitData, IncomingMessage.emittedData]

/-- Witness of C8: a chunk of three bytes delivered while the message is paused. -/
theorem body_routing_witness :
    ∃ q m1, Parser.Static.onBody
        { serverParser keepBody with
          incoming_ := some { IncomingMessage.create none with paused := true } }
        [104, 101, 121] = some (q, 0) ∧
      q.incoming_ = some m1 ∧ m1.pendings = [Value.buffer [104, 101, 121]] ∧
      m1.calls = [] := by
  obtain ⟨q, m1, h, hq, hqueued, _⟩ :=
    body_routing
      { serverParser keepBody with
        incoming_ := some { IncomingMessage.create none with paused := true } }
      { IncomingMessage.create none with paused := true } [104, 101, 121] rfl
  obtain ⟨h1, h2⟩ := hqueued (Or.inl rfl)
  refine ⟨q, m1, h, by rw [hq], by rw [h1]; rfl, by rw [h2]; rfl⟩

theorem flushTrailers_eq (p : Parser) (m : IncomingMessage)
    (hbal : p.fields_.length = p.values_.length) :
    Parser.flushTrailers p m
      = some ({ p with url_ := (if p.fields_.isEmpty then p.url_ else none),
                       fields_ := [], values_ := [] },
              { m with calls := m.calls ++ trailerCalls p }) := by
  rcases p with ⟨fl, tok, url, method, mjv, mnv, st, cap, fs, vs, sock, inc, onI, log⟩
  cases fs with
  | nil =>
    have hvs : vs = [] := by
      cases vs with
      | nil => rfl
      | cons v vs => simp at hbal
    subst hvs
    simp [Parser.flushTrailers, trailerCalls]
  | cons x xs =>
    simp only [List.length_cons] at hbal
    simp [Parser.flushTrailers, trailerCalls, addHeaderLines_eq, ← hbal]

theorem static_onMessageComplete_eq (p : Parser) (m : IncomingMessage) (s : Socket)
    (hm : p.incoming_ = some m) (hs : p.socket_ = some s)
    (hbal : p.fields_.length = p.values_.length) :
    Parser.Static.onMessageComplete p
      = some ({ p with
          url_ := (if p.fields_.isEmpty then p.url_ else none),
          fields_ := [], values_ := [],
          incoming_ := some (Parser.endOfStream
            { m with complete := true,
                     calls := m.calls ++ Call.setFlag MsgFlag.COMPLETE :: trailerCalls p }) },
        0) := by
  unfold Parser.Static.onMessageComplete Parser.onMessageComplete
  simp only [hm]
  rw [flushTrailers_eq p _ hbal]
  simp [hs, IncomingMessage.setFlag, IncomingMessage.writeFlag]

theorem emitEnd_not_mem_trailerCalls (p : Parser) : Call.emitEnd ∉ trailerCalls p := by
  simp [trailerCalls]

theorem unsetFlag_not_mem_trailerCalls (p : Parser) (f : MsgFlag) :
    Call.unsetFlag f ∉ trailerCalls p := by
  simp [trailerCalls]

theorem emitData_not_mem_trailerCalls (p : Parser) (b : Buffer) :
    Call.emitData b ∉ trailerCalls p := by
  simp [trailerCalls]

/-- C9. End of stream at message-complete: with a message, a socket and
balanced accumulators, `on_message_complete` succeeds, returns 0 and always
sets `COMPLETE` on the message. If the message is not flagged `UPGRADE`: when
`PAUSED` is set or the pending queue is not empty, it pushes the sentinel 0 at
the end of the queue, calls no `emitEnd` and leaves `READABLE` alone; otherwise
it clears `READABLE` and calls `emitEnd` exactly once, the queue staying empty.
If the message is flagged `UPGRADE`, it pushes nothing, does not clear
`READABLE` and does not call `emitEnd`. -/
theorem message_complete_end (p : Parser) (m : IncomingMessage) (s : Socket)
    (hm : p.incoming_ = some m) (hs : p.socket_ = some s)
    (hbal : p.fields_.length = p.values_.length) :
    ∃ q m2 extra, Parser.Static.onMessageComplete p = some (q, 0) ∧
      q.incoming_ = some m2 ∧ m2.calls = m.calls ++ extra ∧
      m2.hasFlag MsgFlag.COMPLETE = true ∧ Call.setFlag MsgFlag.COMPLETE ∈ extra ∧
      (m.hasFlag MsgFlag.UPGRADE = false →
        (m.hasFlag MsgFlag.PAUSED = true ∨ m.pendings.length ≠ 0) →
          m2.pendings = m.pendings ++ [Value.int 0] ∧ Call.emitEnd ∉ extra ∧
          Call.unsetFlag MsgFlag.READABLE ∉ extra ∧
          m2.hasFlag MsgFlag.READABLE = m.hasFlag MsgFlag.READABLE) ∧
      (m.hasFlag MsgFlag.UPGRADE = false →
        (m.hasFlag MsgFlag.PAUSED = false ∧ m.pendings.length = 0) →
          m2.hasFlag MsgFlag.READABLE = false ∧ Call.unsetFlag MsgFlag.READABLE ∈ extra ∧
          extra.count Call.emitEnd = 1 ∧ m2.pendings = []) ∧
      (m.hasFlag MsgFlag.UPGRADE = true →
        m2.pendings = m.pendings ∧ Call.emitEnd ∉ extra ∧
        Call.unsetFlag MsgFlag.READABLE ∉ extra ∧
        m2.hasFlag MsgFlag.READABLE = m.hasFlag MsgFlag.READABLE) := by
  have hrun := static_onMessageComplete_eq p m s hm hs hbal
  have hne := emitEnd_not_mem_trailerCalls p
  have hnu := unsetFlag_not_mem_trailerCalls p MsgFlag.READABLE
  have hcount : (trailerCalls p).count Call.emitEnd = 0 := List.count_eq_zero.mpr hne
  cases hu : m.upgrade with
  | true =>
    refine ⟨_, _, Call.setFlag MsgFlag.COMPLETE :: trailerCalls p, hrun, rfl, ?_, ?_, ?_, ?_, ?_, ?_⟩
    · simp [Parser.endOfStream, IncomingMessage.hasFlag, hu]
    · simp [Parser.endOfStream, IncomingMessage.hasFlag, hu]
    · simp
    · simp [IncomingMessage.hasFlag, hu]
    · simp [IncomingMessage.hasFlag, hu]
    · intro _
      simp [Parser.endOfStream, IncomingMessage.hasFlag, hu, hne, hnu]
  | false =>
    by_cases hq : m.paused = true ∨ m.pendings ≠ []
    · have hcond : (m.paused || m.pendings.length != 0) = true := by
        rcases hq with hq | hq
        · simp [hq]
        · simp [hq]
      refine ⟨_, _, Call.setFlag MsgFlag.COMPLETE :: trailerCalls p, hrun, rfl, ?_, ?_, ?_, ?_, ?_, ?_⟩
      · simp [Parser.endOfStream, IncomingMessage.hasFlag, hu, hcond,
          IncomingMessage.pushPending]
      · simp [Parser.endOfStream, IncomingMessage.hasFlag, hu, hcond,
          IncomingMessage.pushPending]
      · simp
      · intro _ _
        simp [Parser.endOfStream, IncomingMessage.hasFlag, hu, hcond,
          IncomingMessage.pushPending, hne, hnu]
      · rintro _ ⟨h1, h2⟩
        rcases hq with hq | hq
        · simp [IncomingMessage.hasFlag, hq] at h1
        · exact absurd (List.length_eq_zero.mp h2) hq
      · intro h
        simp [IncomingMessage.hasFlag, hu] at h
    · have hp : m.paused = false := by
        cases h : m.paused
        · rfl
        · exact absurd (Or.inl h) hq
      have hn : m.pendings = [] := by
        by_contra h
        exact hq (Or.inr h)
      refine ⟨_, _,
        Call.setFlag MsgFlag.COMPLETE :: trailerCalls p
          ++ [Call.unsetFlag MsgFlag.READABLE, Call.emitEnd],
        hrun, rfl, ?_, ?_, ?_, ?_, ?_, ?_⟩
      · simp [Parser.endOfStream, IncomingMessage.hasFlag, hu, hp, hn,
          IncomingMessage.unsetFlag, IncomingMessage.emitEnd, IncomingMessage.writeFlag]
      · simp [Parser.endOfStream, IncomingMessage.hasFlag, hu, hp, hn,
          IncomingMessage.unsetFlag, IncomingMessage.emitEnd, IncomingMessage.writeFlag]
      · simp
      · rintro _ (h | h)
        · simp [IncomingMessage.hasFlag, hp] at h
        · simp [hn] at h
      · intro _ _
        refine ⟨?_, ?_, ?_, ?_⟩
        · simp [Parser.endOfStream, IncomingMessage.hasFlag, hu, hp, hn,
            IncomingMessage.unsetFlag, IncomingMessage.emitEnd, IncomingMessage.writeFlag]
        · simp
        · rw [List.count_append, List.count_cons, hcount]
          simp [List.count_cons]
        · simp [Parser.endOfStream, IncomingMessage.hasFlag, hu, hp, hn,
            IncomingMessage.unsetFlag, IncomingMessage.emitEnd, IncomingMessage.writeFlag]
      · intro h
        simp [IncomingMessage.hasFlag, hu] at h

/-- Witness of C9: a message that is neither paused nor upgraded and has an
empty queue; `READABLE` is cleared and `emitEnd` is called once. -/
theorem message_complete_end_witness :
    ∃ q m2, Parser.Static.onMessageComplete
        { serverParser keepBody with incoming_ := some (IncomingMessage.create none) }
          = some (q, 0) ∧
      q.incoming_ = some m2 ∧ m2.hasFlag MsgFlag.COMPLETE = true ∧
      m2.hasFlag MsgFlag.READABLE = false ∧ m2.pendings = [] ∧ m2.emitEndCount = 1 := by
  obtain ⟨q, m2, extra, h, hq, hcalls, hcomplete, _, _, hemit, _⟩ :=
    message_complete_end
      { serverParser keepBody with incoming_ := some (IncomingMessage.create none) }
      (IncomingMessage.create none) { readable := true } rfl rfl rfl
  obtain ⟨hr, _, hcount, hpend⟩ := hemit rfl ⟨rfl, rfl⟩
  refine ⟨q, m2, h, hq, hcomplete, hr, hpend, ?_⟩
  rw [IncomingMessage.emitEndCount, hcalls, List.count_append, hcount]
  rfl

theorem run_bodies_paused (chunks : List Buffer) :
    ∀ (p : Parser) (m : IncomingMessage), p.incoming_ = some m → m.paused = true →
      run p (chunks.map Event.body)
        = some { p with
            incoming_ := (some { m with pendings := m.pendings ++ chunks.map Value.buffer }) } := by
  induction chunks with
  | nil =>
    intro p m hm _
    simp [run, ← hm]
  | cons c cs ih =>
    intro p m hm hp
    simp only [List.map_cons, run, step]
    rw [static_onBody_queued p m c hm (Or.inl hp)]
    simp only [Option.some_bind]
    rw [ih { p with incoming_ := some (m.pushPending (Value.buffer c)) }
      (m.pushPending (Value.buffer c)) rfl (by simpa [IncomingMessage.pushPending] using hp)]
    simp [IncomingMessage.pushPending]

/-- C7. Pause buffering: if the message the adapter holds is not flagged
`UPGRADE`, has `PAUSED` set and an empty pending queue, then for every sequence
of body chunks `c_1 .. c_m` delivered by `on_body` and followed by
`on_message_complete` (socket in place, accumulators balanced) every callback
succeeds, the pending queue ends as `[c_1, ..., c_m, 0]` in that order,
`PAUSED` is still set, and among the calls made on the message there is no
`emitData` and no `emitEnd`. -/
theorem pause_buffering (p : Parser) (m : IncomingMessage) (s : Socket)
    (chunks : List Buffer)
    (hm : p.incoming_ = some m) (hs : p.socket_ = some s)
    (hbal : p.fields_.length = p.values_.length)
    (hpaused : m.hasFlag MsgFlag.PAUSED = true)
    (hup : m.hasFlag MsgFlag.UPGRADE = false)
    (hempty : m.pendings = []) :
    ∃ q m2 extra, run p (chunks.map Event.body ++ [Event.messageComplete]) = some q ∧
      q.incoming_ = some m2 ∧
      m2.pendings = chunks.map Value.buffer ++ [Value.int 0] ∧
      m2.hasFlag MsgFlag.PAUSED = true ∧
      m2.calls = m.calls ++ extra ∧
      Call.emitEnd ∉ extra ∧ (∀ b, Call.emitData b ∉ extra) := by
  have hp : m.paused = true := hpaused
  have hu : m.upgrade = false := hup
  have hne := emitEnd_not_mem_trailerCalls p
  have hnd := emitData_not_mem_trailerCalls p
  have hrun : run p (chunks.map Event.body ++ [Event.messageComplete])
      = some { p with
          url_ := (if p.fields_.isEmpty then p.url_ else none),
          fields_ := [], values_ := [],
          incoming_ := some (Parser.endOfStream
            { m with pendings := m.pendings ++ chunks.map Value.buffer,
                     complete := true,
                     calls := m.calls ++ Call.setFlag MsgFlag.COMPLETE :: trailerCalls p }) } := by
    rw [run_append, run_bodies_paused chunks p m hm hp]
    simp only [Option.some_bind, run, step]
    rw [static_onMessageComplete_eq
      { p with incoming_ := some { m with pendings := m.pendings ++ chunks.map Value.buffer } }
      { m with pendings := m.pendings ++ chunks.map Value.buffer } s rfl hs hbal]
    simp only [Option.some_bind]
    rfl
  refine ⟨_, _, Call.setFlag MsgFlag.COMPLETE :: trailerCalls p, hrun, rfl, ?_, ?_, ?_, ?_, ?_⟩
  · simp [Parser.endOfStream, IncomingMessage.hasFlag, hu, hp, hempty,
      IncomingMessage.pushPending]
  · simp [Parser.endOfStream, IncomingMessage.hasFlag, hu, hp,
      IncomingMessage.pushPending]
  · simp [Parser.endOfStream, IncomingMessage.hasFlag, hu, hp,
      IncomingMessage.pushPending]
  · simp [hne]
  · intro b
    simp [hnd]

/-- Witness of C7: a body of three bytes delivered in one chunk to a paused
message; the pending queue ends as the buffer followed by 0. -/
theorem pause_buffering_witness :
    ∃ q m2 extra,
      run { serverParser keepBody with incoming_ := some pausedMessage }
        ([[97, 98, 99]].map Event.body ++ [Event.messageComplete]) = some q ∧
      q.incoming_ = some m2 ∧
      m2.pendings = [[97, 98, 99]].map Value.buffer ++ [Value.int 0] ∧
      m2.hasFlag MsgFlag.PAUSED = true ∧
      m2.calls = pausedMessage.calls ++ extra ∧
      Call.emitEnd ∉ extra ∧ (∀ b, Call.emitData b ∉ extra) :=
  pause_buffering { serverParser keepBody with incoming_ := some pausedMessage }
    pausedMessage { readable := true } [[97, 98, 99]] rfl rfl rfl rfl rfl rfl

/-! ## What each callback leaves alone -/

theorem onHeadersComplete_unbalanced (s : Parser)
    (hbal : s.fields_.length ≠ s.values_.length) :
    Parser.onHeadersComplete s = none := by
  have h : ¬ s.values_.length = s.fields_.length := fun h => hbal h.symm
  simp [Parser.onHeadersComplete, h]

theorem onHeadersComplete_no_callback (s : Parser)
    (hup : s.hasFlag Flag.UPGRADE = false) (hf : s.onIncoming_ = none) :
    Parser.onHeadersComplete s = none := by
  simp only [Parser.hasFlag] at hup
  simp [Parser.onHeadersComplete, Parser.hasFlag, hup, hf]

theorem onHeadersComplete_frame (s q : Parser) (r : Int)
    (h : Parser.onHeadersComplete s = some (q, r)) :
    q.flags_ = s.flags_ ∧ q.parser_ = s.parser_ ∧ q.method_ = s.method_ ∧
    q.majorVer_ = s.majorVer_ ∧ q.minorVer_ = s.minorVer_ ∧
    q.statusCode_ = s.statusCode_ ∧ q.maxHeaderPairs_ = s.maxHeaderPairs_ ∧
    q.socket_ = s.socket_ ∧ q.onIncoming_ = s.onIncoming_ ∧
    q.url_ = none ∧ q.fields_ = [] ∧ q.values_ = [] ∧ q.incoming_.isSome = true ∧
    s.fields_.length = s.values_.length := by
  by_cases hbal : s.fields_.length = s.values_.length
  · cases hup : s.hasFlag Flag.UPGRADE with
    | true =>
      rw [onHeadersComplete_upgraded s hbal hup] at h
      simp only [Option.some.injEq, Prod.mk.injEq] at h
      obtain ⟨hq, _⟩ := h
      subst hq
      simp [hbal]
    | false =>
      cases hf : s.onIncoming_ with
      | none =>
        rw [onHeadersComplete_no_callback s hup hf] at h
        simp at h
      | some f =>
        rw [onHeadersComplete_plain s f hbal hup hf] at h
        simp only [Option.some.injEq, Prod.mk.injEq] at h
        obtain ⟨hq, _⟩ := h
        subst hq
        simp [hbal, hf]
  · rw [onHeadersComplete_unbalanced s hbal] at h
    simp at h

/-- C14. `on_message_begin` from every adapter state: `url` becomes none,
`fields` and `values` become empty, the callback returns 0, and the flags, the
method, the status code, the two version numbers, the cap and the `incoming`
reference are left as they were; so are the tokenizer struct, the socket, the
upstream callback and the record of its calls. -/
theorem message_begin_reset (p : Parser) :
    (Parser.onMessageBegin p).1.url_ = none ∧
    (Parser.onMessageBegin p).1.fields_ = [] ∧
    (Parser.onMessageBegin p).1.values_ = [] ∧
    (Parser.onMessageBegin p).2 = 0 ∧
    (Parser.onMessageBegin p).1.flags_ = p.flags_ ∧
    (Parser.onMessageBegin p).1.method_ = p.method_ ∧
    (Parser.onMessageBegin p).1.statusCode_ = p.statusCode_ ∧
    (Parser.onMessageBegin p).1.majorVer_ = p.majorVer_ ∧
    (Parser.onMessageBegin p).1.minorVer_ = p.minorVer_ ∧
    (Parser.onMessageBegin p).1.maxHeaderPairs_ = p.maxHeaderPairs_ ∧
    (Parser.onMessageBegin p).1.incoming_ = p.incoming_ ∧
    (Parser.onMessageBegin p).1.parser_ = p.parser_ ∧
    (Parser.onMessageBegin p).1.socket_ = p.socket_ ∧
    (Parser.onMessageBegin p).1.onIncoming_ = p.onIncoming_ ∧
    (Parser.onMessageBegin p).1.incomingLog = p.incomingLog :=
  ⟨rfl, rfl, rfl, rfl, rfl, rfl, rfl, rfl, rfl, rfl, rfl, rfl, rfl, rfl, rfl⟩

/-! ## Header lines, method and status on the new message -/

theorem range_getCPtr_zip (fs vs : List (Option String)) (h : fs.length = vs.length) :
    (List.range fs.length).map (fun i => (Parser.getCPtr fs i, Parser.getCPtr vs i))
      = fs.zip vs := by
  apply List.ext_getElem
  · simp [h]
  · intro i h1 h2
    have hi : i < fs.length := by simpa using h1
    have hv : i < vs.length := by omega
    simp [Parser.getCPtr, List.getD_eq_getElem?_getD, hi, hv]

theorem populated_headerLines (s : Parser) :
    (Parser.populated s).headerLines
      = (List.range (Parser.headerLineCount s)).map
          (fun i => (Parser.getCPtr s.fields_ i, Parser.getCPtr s.values_ i)) := by
  rw [IncomingMessage.headerLines, populated_calls]
  simp only [List.filterMap_append, List.filterMap_map]
  have hlast : List.filterMap
      (fun c => match c with
        | Call.addHeaderLine n v => some (n, v)
        | _ => none)
      [if s.method_.isSome then Call.setMethod s.method_
       else Call.setStatusCode s.statusCode_] = [] := by
    split <;> rfl
  rw [hlast]
  simp only [Function.comp_def, List.filterMap_cons, List.filterMap_nil, List.nil_append,
    List.append_nil]
  rw [← List.filterMap_eq_map]
  rfl

theorem static_onHeadersComplete_filled (p : Parser) (f : JsFunction)
    (hf : p.onIncoming_ = some f) (hbal : p.fields_.length = p.values_.length) :
    ∃ q r, Parser.Static.onHeadersComplete p = some (q, r) ∧
      (((Parser.Static.recordHeaders p).hasFlag Flag.UPGRADE = true ∧
        q.incoming_ = some ((Parser.populated (Parser.Static.recordHeaders p)).setFlag
          MsgFlag.UPGRADE) ∧
        q.incomingLog = p.incomingLog) ∨
       ((Parser.Static.recordHeaders p).hasFlag Flag.UPGRADE = false ∧
        q.incoming_ = some (f.call (Parser.populated (Parser.Static.recordHeaders p))
          ((Parser.Static.recordHeaders p).hasFlag Flag.SHOULD_KEEP_ALIVE)).2 ∧
        q.incomingLog = p.incomingLog ++
          [(Parser.populated (Parser.Static.recordHeaders p),
            (Parser.Static.recordHeaders p).hasFlag Flag.SHOULD_KEEP_ALIVE)])) := by
  cases hup : (Parser.Static.recordHeaders p).hasFlag Flag.UPGRADE with
  | true =>
    exact ⟨_, _, static_onHeadersComplete_upgraded p hbal hup,
      Or.inl ⟨rfl, rfl, (recordHeaders_frame p).2.2.2.2.2.1⟩⟩
  | false =>
    exact ⟨_, _, static_onHeadersComplete_plain p f hbal hup hf, Or.inr ⟨rfl, rfl, rfl⟩⟩

theorem headerLineCount_recordHeaders (p : Parser) :
    Parser.headerLineCount (Parser.Static.recordHeaders p) = Parser.headerLineCount p := by
  obtain ⟨hfs, -, -, -, -, -, hcap, -⟩ := recordHeaders_frame p
  simp only [Parser.headerLineCount, hfs, hcap]

/-- C18. The cap as the source applies it. At `on_headers_complete` (upstream
callback in place, accumulators balanced) the callback succeeds and the new
message is the one filled from the adapter; when `maxHeaderPairs_` is 0, the
value the constructor sets, the number of lines it adds is 0 and the message
gets no header line, however many pairs were accumulated; when
`maxHeaderPairs_` is not 0 it adds every accumulated pair, in order, whatever
the cap. -/
theorem cap_observed (p : Parser) (f : JsFunction)
    (hf : p.onIncoming_ = some f) (hbal : p.fields_.length = p.values_.length) :
    (∃ q r, Parser.Static.onHeadersComplete p = some (q, r) ∧
      (q.incoming_ = some ((Parser.populated (Parser.Static.recordHeaders p)).setFlag
          MsgFlag.UPGRADE) ∨
       q.incomingLog = p.incomingLog ++
          [(Parser.populated (Parser.Static.recordHeaders p),
            (Parser.Static.recordHeaders p).hasFlag Flag.SHOULD_KEEP_ALIVE)])) ∧
    (p.maxHeaderPairs_ = 0 →
      Parser.headerLineCount (Parser.Static.recordHeaders p) = 0 ∧
      (Parser.populated (Parser.Static.recordHeaders p)).headerLines = []) ∧
    (p.maxHeaderPairs_ ≠ 0 →
      Parser.headerLineCount (Parser.Static.recordHeaders p) = p.fields_.length ∧
      (Parser.populated (Parser.Static.recordHeaders p)).headerLines
        = p.fields_.zip p.values_) ∧
    (∀ (t : http_parser_type) (a b c : Int), (Parser.create t a b c).maxHeaderPairs_ = 0) := by
  obtain ⟨hfs, hvs, -⟩ := recordHeaders_frame p
  refine ⟨?_, ?_, ?_, fun _ _ _ _ => rfl⟩
  · obtain ⟨q, r, h, hcase⟩ := static_onHeadersComplete_filled p f hf hbal
    refine ⟨q, r, h, ?_⟩
    rcases hcase with ⟨_, hi, _⟩ | ⟨_, _, hl⟩
    · exact Or.inl hi
    · exact Or.inr hl
  · intro hcap
    have hcount : Parser.headerLineCount (Parser.Static.recordHeaders p) = 0 := by
      rw [headerLineCount_recordHeaders]
      simp [Parser.headerLineCount, hcap]
    refine ⟨hcount, ?_⟩
    rw [populated_headerLines, hcount]
    rfl
  · intro hcap
    have hcount : Parser.headerLineCount (Parser.Static.recordHeaders p)
        = p.fields_.length := by
      rw [headerLineCount_recordHeaders]
      simp [Parser.headerLineCount, hcap]
    refine ⟨hcount, ?_⟩
    rw [populated_headerLines, hcount, hfs, hvs]
    exact range_getCPtr_zip p.fields_ p.values_ hbal

/-- Witness of C18: a new adapter (cap 0) holding two pairs; no line is added. -/
theorem cap_observed_witness :
    (Parser.populated (Parser.Static.recordHeaders
      { serverParser keepBody with
        parser_ := getRequest false true
        fields_ := [some "A", some "B"]
        values_ := [some "1", some "2"] })).headerLines = [] :=
  ((cap_observed
    { serverParser keepBody with
      parser_ := getRequest false true
      fields_ := [some "A", some "B"]
      values_ := [some "1", some "2"] } keepBody rfl rfl).2.1 rfl).2

theorem recordHeaders_method (p : Parser) :
    (Parser.Static.recordHeaders p).method_
      = (if p.parser_.type = http_parser_type.HTTP_REQUEST
         then some (Parser.methodString p.parser_.method) else p.method_) ∧
    (Parser.Static.recordHeaders p).statusCode_
      = (if p.parser_.type = http_parser_type.HTTP_RESPONSE
         then (p.parser_.status_code : Int) else p.statusCode_) := by
  rcases p with ⟨fl, ⟨ty, me, sc, mj, mn, up, ka⟩, url, method, mjv, mnv, st, cap, fs, vs,
    sock, inc, onI, log⟩
  cases up <;> cases ka <;> cases ty <;> simp [Parser.Static.recordHeaders, Parser.setFlag]

theorem populated_method (s : Parser) :
    (Parser.populated s).method = s.method_ ∧
    (Parser.populated s).statusCode
      = (if s.method_.isSome then none else some s.statusCode_) := by
  unfold Parser.populated
  simp only [addHeaderLines_eq]
  cases hm : s.method_ with
  | none => simp [IncomingMessage.setStatusCode, IncomingMessage.setHttpVersion,
      IncomingMessage.setUrl, IncomingMessage.create]
  | some m => simp [IncomingMessage.setMethod, IncomingMessage.setHttpVersion,
      IncomingMessage.setUrl, IncomingMessage.create]

theorem onHeaderField_shape (p q : Parser) (frag : String) (r : Int)
    (h : Parser.onHeaderField p frag = some (q, r)) :
    q = { p with fields_ := q.fields_ } := by
  unfold Parser.onHeaderField at h
  simp only [] at h
  split_ifs at h <;>
    (simp only [Option.map_eq_some', Prod.mk.injEq] at h
     obtain ⟨fs, _, hq, _⟩ := h
     rw [← hq])

theorem onHeaderValue_shape (p q : Parser) (frag : String) (r : Int)
    (h : Parser.onHeaderValue p frag = some (q, r)) :
    q = { p with values_ := q.values_ } := by
  unfold Parser.onHeaderValue at h
  simp only [] at h
  split_ifs at h <;>
    (simp only [Option.map_eq_some', Prod.mk.injEq] at h
     obtain ⟨fs, _, hq, _⟩ := h
     rw [← hq])

theorem static_onBody_shape (p q : Parser) (buf : Buffer) (r : Int)
    (h : Parser.Static.onBody p buf = some (q, r)) :
    q = { p with incoming_ := q.incoming_ } ∧ q.incoming_.isSome = true := by
  unfold Parser.Static.onBody Parser.onBody at h
  cases hi : p.incoming_ with
  | none => simp [hi] at h
  | some m =>
    simp only [hi] at h
    split at h <;> simp at h <;> rw [← h.1] <;> simp

theorem static_onMessageComplete_frame (p q : Parser) (r : Int)
    (h : Parser.Static.onMessageComplete p = some (q, r)) :
    Parser.SameSettings p q ∧ q.incoming_.isSome = true := by
  unfold Parser.Static.onMessageComplete Parser.onMessageComplete at h
  cases hi : p.incoming_ with
  | none => simp [hi] at h
  | some m =>
    simp only [hi, Option.map_eq_some', Option.bind_eq_some, Prod.mk.injEq] at h
    obtain ⟨q1, ⟨⟨p1, m1⟩, hst, hq1⟩, hq, _⟩ := h
    have hsame : Parser.SameSettings p p1 := by
      unfold Parser.flushTrailers at hst
      split_ifs at hst <;> simp at hst <;>
        first
        | (obtain ⟨_, hst, _⟩ := hst
           rw [← hst]
           exact ⟨rfl, rfl, rfl, rfl, rfl, rfl, rfl, rfl, rfl, rfl⟩)
        | (obtain ⟨hst, _⟩ := hst
           rw [← hst]
           exact ⟨rfl, rfl, rfl, rfl, rfl, rfl, rfl, rfl, rfl, rfl⟩)
    simp only [] at hq1
    cases hs : p1.socket_ with
    | none => simp [hs] at hq1
    | some s =>
      simp [hs] at hq1
      rw [← hq, ← hq1]
      obtain ⟨h1, h2, h3, h4, h5, h6, h7, h8, h9, h10⟩ := hsame
      exact ⟨⟨h1, h2, h3, h4, h5, h6, h7, by rw [← hs]; exact h8, h9, h10⟩, rfl⟩

theorem sameSettings_of_eq_fields (p q : Parser)
    (h : q = { p with fields_ := q.fields_ }) : Parser.SameSettings p q := by
  rw [h]
  exact ⟨rfl, rfl, rfl, rfl, rfl, rfl, rfl, rfl, rfl, rfl⟩

theorem sameSettings_of_eq_values (p q : Parser)
    (h : q = { p with values_ := q.values_ }) : Parser.SameSettings p q := by
  rw [h]
  exact ⟨rfl, rfl, rfl, rfl, rfl, rfl, rfl, rfl, rfl, rfl⟩

theorem sameSettings_of_eq_incoming (p q : Parser)
    (h : q = { p with incoming_ := q.incoming_ }) : Parser.SameSettings p q := by
  rw [h]
  exact ⟨rfl, rfl, rfl, rfl, rfl, rfl, rfl, rfl, rfl, rfl⟩

theorem step_frame (p q : Parser) (ev : Event) (r : Int)
    (h : step p ev = some (q, r)) (hev : ∀ tok, ev ≠ Event.headersComplete tok) :
    Parser.SameSettings p q := by
  cases ev with
  | messageBegin =>
    simp only [step, Option.some.injEq] at h
    have hq : q = (Parser.onMessageBegin p).1 := by rw [h]
    rw [hq]
    exact ⟨rfl, rfl, rfl, rfl, rfl, rfl, rfl, rfl, rfl, rfl⟩
  | url frag =>
    simp only [step, Option.some.injEq] at h
    have hq : q = (Parser.onUrl p frag).1 := by rw [h]
    rw [hq]
    exact ⟨rfl, rfl, rfl, rfl, rfl, rfl, rfl, rfl, rfl, rfl⟩
  | headerField frag =>
    exact sameSettings_of_eq_fields p q (onHeaderField_shape p q frag r h)
  | headerValue frag =>
    exact sameSettings_of_eq_values p q (onHeaderValue_shape p q frag r h)
  | headersComplete tok => exact absurd rfl (hev tok)
  | body buf =>
    exact sameSettings_of_eq_incoming p q (static_onBody_shape p q buf r h).1
  | messageComplete =>
    exact (static_onMessageComplete_frame p q r h).1

theorem static_onHeadersComplete_frame (p q : Parser) (r : Int)
    (h : Parser.Static.onHeadersComplete p = some (q, r)) :
    q.flags_ = (Parser.Static.recordHeaders p).flags_ ∧
    q.method_ = (Parser.Static.recordHeaders p).method_ ∧
    q.statusCode_ = (Parser.Static.recordHeaders p).statusCode_ ∧
    q.majorVer_ = (p.parser_.http_major : Int) ∧
    q.minorVer_ = (p.parser_.http_minor : Int) ∧
    q.url_ = none ∧ q.fields_ = [] ∧ q.values_ = [] ∧ q.incoming_.isSome = true ∧
    p.fields_.length = p.values_.length := by
  unfold Parser.Static.onHeadersComplete at h
  simp only [Option.map_eq_some', Prod.mk.injEq] at h
  obtain ⟨⟨q1, r1⟩, hrun, hq, _⟩ := h
  simp only [] at hq
  subst hq
  obtain ⟨h1, -, h3, h4, h5, h6, -, -, -, h10, h11, h12, h13, h14⟩ :=
    onHeadersComplete_frame _ _ _ hrun
  obtain ⟨hfs, hvs, -, -, -, -, -, hmj, hmn⟩ := recordHeaders_frame p
  exact ⟨h1, h3, h6, by rw [h4, hmj], by rw [h5, hmn], h10, h11, h12, h13,
    by rw [← hfs, ← hvs]; exact h14⟩

theorem run_method_none (evs : List Event) :
    ∀ p q : Parser, p.method_ = none →
      (∀ ev ∈ evs, ev.isRequestHeaders = false) →
      run p evs = some q → q.method_ = none := by
  induction evs with
  | nil =>
    intro p q hp _ h
    simp only [run, Option.some.injEq] at h
    rw [← h]; exact hp
  | cons ev rest ih =>
    intro p q hp hev h
    simp only [run, Option.bind_eq_some] at h
    obtain ⟨⟨p1, r1⟩, hstep, hrest⟩ := h
    have hrestev : ∀ e ∈ rest, e.isRequestHeaders = false :=
      fun e he => hev e (List.mem_cons_of_mem _ he)
    have hthis := hev ev (List.mem_cons_self _ _)
    refine ih p1 q ?_ hrestev hrest
    by_cases hc : ∃ tok, ev = Event.headersComplete tok
    · obtain ⟨tok, rfl⟩ := hc
      simp only [step] at hstep
      obtain ⟨-, hm, -⟩ := static_onHeadersComplete_frame _ _ _ hstep
      rw [hm, (recordHeaders_method _).1]
      have hty : tok.type ≠ http_parser_type.HTTP_REQUEST := by
        simpa [Event.isRequestHeaders] using hthis
      simp [hty, hp]
    · have hsame := step_frame p p1 ev r1 hstep (fun tok htok => hc ⟨tok, htok⟩)
      rw [hsame.2.2.1]; exact hp

theorem populated_calls_split (s : Parser) :
    ∃ pre, (Parser.populated s).calls
        = pre ++ [if s.method_.isSome then Call.setMethod s.method_
                  else Call.setStatusCode s.statusCode_] ∧
      ∀ c ∈ pre, (∀ m, c ≠ Call.setMethod m) ∧ (∀ n, c ≠ Call.setStatusCode n) := by
  refine ⟨_, populated_calls s, ?_⟩
  intro c hc
  simp only [List.mem_append, List.mem_cons, List.mem_singleton, List.mem_map,
    List.not_mem_nil, or_false] at hc
  rcases hc with (rfl | rfl) | ⟨i, _, rfl⟩ <;> simp

/-- C11. Method or status on the new message. At `on_headers_complete`
(upstream callback in place, accumulators balanced) the callback succeeds and
the new message is the one filled from the adapter. When the tokenizer struct
has type `HTTP_REQUEST`, the last call made while filling it is `setMethod`
with the string of the tokenizer's method, and no other `setMethod` and no
`setStatusCode` is called; the string is `DELETE`, `GET`, `HEAD`, `POST`,
`PUT`, `CONNECT`, `OPTIONS` or `TRACE` for the corresponding enum value and the
empty string for every other value. When the struct has type `HTTP_RESPONSE`
and the adapter holds no method, the last call is `setStatusCode` with the
tokenizer's `status_code`, and no other `setStatusCode` and no `setMethod` is
called. An adapter that is constructed holds no method, and keeps none along
every run of callbacks whose tokenizer struct is never of type `HTTP_REQUEST`
at `on_headers_complete`: a response adapter always meets that condition. -/
theorem method_or_status (p : Parser) (f : JsFunction)
    (hf : p.onIncoming_ = some f) (hbal : p.fields_.length = p.values_.length) :
    (∃ q r, Parser.Static.onHeadersComplete p = some (q, r) ∧
      (q.incoming_ = some ((Parser.populated (Parser.Static.recordHeaders p)).setFlag
          MsgFlag.UPGRADE) ∨
       q.incomingLog = p.incomingLog ++
          [(Parser.populated (Parser.Static.recordHeaders p),
            (Parser.Static.recordHeaders p).hasFlag Flag.SHOULD_KEEP_ALIVE)])) ∧
    (p.parser_.type = http_parser_type.HTTP_REQUEST →
      (Parser.populated (Parser.Static.recordHeaders p)).method
        = some (Parser.methodString p.parser_.method) ∧
      ∃ pre, (Parser.populated (Parser.Static.recordHeaders p)).calls
          = pre ++ [Call.setMethod (some (Parser.methodString p.parser_.method))] ∧
        ∀ c ∈ pre, (∀ m, c ≠ Call.setMethod m) ∧ (∀ n, c ≠ Call.setStatusCode n)) ∧
    (p.parser_.type = http_parser_type.HTTP_RESPONSE → p.method_ = none →
      (Parser.populated (Parser.Static.recordHeaders p)).statusCode
        = some (p.parser_.status_code : Int) ∧
      ∃ pre, (Parser.populated (Parser.Static.recordHeaders p)).calls
          = pre ++ [Call.setStatusCode (p.parser_.status_code : Int)] ∧
        ∀ c ∈ pre, (∀ m, c ≠ Call.setMethod m) ∧ (∀ n, c ≠ Call.setStatusCode n)) ∧
    (Parser.methodString http_method.HTTP_DELETE = "DELETE" ∧
      Parser.methodString http_method.HTTP_GET = "GET" ∧
      Parser.methodString http_method.HTTP_HEAD = "HEAD" ∧
      Parser.methodString http_method.HTTP_POST = "POST" ∧
      Parser.methodString http_method.HTTP_PUT = "PUT" ∧
      Parser.methodString http_method.HTTP_CONNECT = "CONNECT" ∧
      Parser.methodString http_method.HTTP_OPTIONS = "OPTIONS" ∧
      Parser.methodString http_method.HTTP_TRACE = "TRACE" ∧
      ∀ code, Parser.methodString (http_method.HTTP_OTHER code) = "") ∧
    (∀ (a b c : Int),
      (Parser.create http_parser_type.HTTP_RESPONSE a b c).method_ = none) ∧
    (∀ (evs : List Event) (p0 q0 : Parser), p0.method_ = none →
      (∀ ev ∈ evs, ev.isRequestHeaders = false) →
      run p0 evs = some q0 → q0.method_ = none) := by
  refine ⟨?_, ?_, ?_, ⟨rfl, rfl, rfl, rfl, rfl, rfl, rfl, rfl, fun _ => rfl⟩,
    fun _ _ _ => rfl, fun evs p0 q0 h0 hev hr => run_method_none evs p0 q0 h0 hev hr⟩
  · obtain ⟨q, r, h, hcase⟩ := static_onHeadersComplete_filled p f hf hbal
    refine ⟨q, r, h, ?_⟩
    rcases hcase with ⟨_, hi, _⟩ | ⟨_, _, hl⟩
    · exact Or.inl hi
    · exact Or.inr hl
  · intro hty
    have hm : (Parser.Static.recordHeaders p).method_
        = some (Parser.methodString p.parser_.method) := by
      rw [(recordHeaders_method p).1]; simp [hty]
    refine ⟨by rw [(populated_method _).1, hm], ?_⟩
    obtain ⟨pre, hcalls, hpre⟩ := populated_calls_split (Parser.Static.recordHeaders p)
    refine ⟨pre, ?_, hpre⟩
    rw [hcalls, hm]
    simp
  · intro hty hnone
    have hm : (Parser.Static.recordHeaders p).method_ = none := by
      rw [(recordHeaders_method p).1]; simp [hty, hnone]
    have hs : (Parser.Static.recordHeaders p).statusCode_ = (p.parser_.status_code : Int) := by
      rw [(recordHeaders_method p).2]; simp [hty]
    refine ⟨by rw [(populated_method _).2, hm, hs]; simp, ?_⟩
    obtain ⟨pre, hcalls, hpre⟩ := populated_calls_split (Parser.Static.recordHeaders p)
    refine ⟨pre, ?_, hpre⟩
    rw [hcalls, hm, hs]
    simp

/-- Witness of C11: a `GET` request on a new request adapter; the method given
to the message is `GET`. -/
theorem method_or_status_witness :
    (Parser.populated (Parser.Static.recordHeaders
      { serverParser keepBody with parser_ := getRequest false true })).method
      = some "GET" :=
  ((method_or_status { serverParser keepBody with parser_ := getRequest false true }
    keepBody rfl rfl).2.1 rfl).1

/-! ## URL and version -/

theorem run_urls (frags : List String) :
    ∀ p : Parser, run p (frags.map Event.url)
      = some { p with url_ := frags.foldl Parser.LIBNODE_STR_UPDATE p.url_ } := by
  induction frags with
  | nil => intro p; simp [run]
  | cons g gs ih =>
    intro p
    simp only [List.map_cons, run, step, Option.some_bind, Parser.onUrl]
    rw [ih]
    simp

theorem foldl_STR_UPDATE_some (frags : List String) :
    ∀ s : String, frags.foldl Parser.LIBNODE_STR_UPDATE (some s)
      = some (frags.foldl (fun acc f => acc ++ f) s) := by
  induction frags with
  | nil => intro s; rfl
  | cons g gs ih => intro s; simp only [List.foldl_cons, Parser.LIBNODE_STR_UPDATE]; rw [ih]

theorem foldl_STR_UPDATE_none (frags : List String) (hne : frags ≠ []) :
    frags.foldl Parser.LIBNODE_STR_UPDATE none = some (concatFrags frags) := by
  cases frags with
  | nil => exact absurd rfl hne
  | cons g gs =>
    simp only [List.foldl_cons, Parser.LIBNODE_STR_UPDATE, concatFrags]
    rw [foldl_STR_UPDATE_some]
    simp

theorem populated_url (s : Parser) :
    (Parser.populated s).url = s.url_ ∧
    (Parser.populated s).httpVersion = some (Parser.httpVer s.majorVer_ s.minorVer_) ∧
    (Parser.populated s).socket = s.socket_ := by
  unfold Parser.populated
  simp only [addHeaderLines_eq]
  split <;> simp [IncomingMessage.setMethod, IncomingMessage.setStatusCode,
    IncomingMessage.setHttpVersion, IncomingMessage.setUrl, IncomingMessage.create]

theorem httpVer_natCast (a b : Nat) :
    Parser.httpVer (a : Int) (b : Int) = toString a ++ "." ++ toString b := rfl

/-- C12. URL and version of the new message. For every list of one or more
fragments, after `on_message_begin` followed by `on_url` for each fragment in
order, `on_headers_complete` (upstream callback in place) succeeds and the new
message has had `setUrl` called with the fragments put together, which depends
on their concatenation only and not on how it was cut, and `setHttpVersion`
called with the decimal of `http_major`, a dot, and the decimal of
`http_minor`. -/
theorem url_and_version (p : Parser) (f : JsFunction) (hf : p.onIncoming_ = some f)
    (frags : List String) (hne : frags ≠ []) (tok : http_parser_t) :
    ∃ q m keepAlive,
      run p ([Event.messageBegin] ++ frags.map Event.url ++ [Event.headersComplete tok])
        = some q ∧
      (q.incoming_ = some (m.setFlag MsgFlag.UPGRADE) ∨
        q.incomingLog = p.incomingLog ++ [(m, keepAlive)]) ∧
      m.url = some (concatFrags frags) ∧
      Call.setUrl (some (concatFrags frags)) ∈ m.calls ∧
      m.httpVersion = some (toString tok.http_major ++ "." ++ toString tok.http_minor) ∧
      Call.setHttpVersion (toString tok.http_major ++ "." ++ toString tok.http_minor)
        ∈ m.calls := by
  have hstate : run p ([Event.messageBegin] ++ frags.map Event.url)
      = some { (Parser.onMessageBegin p).1 with url_ := some (concatFrags frags) } := by
    rw [run_append]
    simp only [run, step, Option.some_bind]
    rw [run_urls]
    have hnone : (Parser.onMessageBegin p).1.url_ = none := rfl
    rw [hnone, foldl_STR_UPDATE_none frags hne]
  obtain ⟨X, hX⟩ : ∃ X : Parser, X =
      { (Parser.onMessageBegin p).1 with url_ := some (concatFrags frags), parser_ := tok } :=
    ⟨_, rfl⟩
  have hXf : X.onIncoming_ = some f := by rw [hX]; exact hf
  have hXbal : X.fields_.length = X.values_.length := by rw [hX]; rfl
  have hXurl : X.url_ = some (concatFrags frags) := by rw [hX]
  have hXtok : X.parser_ = tok := by rw [hX]
  have hXlog : X.incomingLog = p.incomingLog := by rw [hX]; rfl
  obtain ⟨q, r, hq, hcase⟩ := static_onHeadersComplete_filled X f hXf hXbal
  obtain ⟨-, -, hurl, -, -, -, -, hmj, hmn⟩ := recordHeaders_frame X
  obtain ⟨hu, hv, -⟩ := populated_url (Parser.Static.recordHeaders X)
  have hcalls := populated_calls (Parser.Static.recordHeaders X)
  rw [hurl, hXurl] at hu hcalls
  rw [hmj, hmn, httpVer_natCast, hXtok] at hv hcalls
  refine ⟨q, Parser.populated (Parser.Static.recordHeaders X),
    (Parser.Static.recordHeaders X).hasFlag Flag.SHOULD_KEEP_ALIVE, ?_, ?_, hu, ?_, hv, ?_⟩
  · rw [run_append, hstate]
    simp only [Option.some_bind, run, step]
    rw [← hX, hq]
    rfl
  · rcases hcase with ⟨_, hi, _⟩ | ⟨_, _, hl⟩
    · exact Or.inl hi
    · right; rw [← hXlog]; exact hl
  · rw [hcalls]; simp
  · rw [hcalls]; simp

/-- Witness of C12: the request target `/hello` delivered as `/he` and `llo`
on HTTP/1.1. -/
theorem url_and_version_witness :
    ∃ q m keepAlive,
      run (serverParser keepBody)
        ([Event.messageBegin] ++ ["/he", "llo"].map Event.url
          ++ [Event.headersComplete (getRequest false true)]) = some q ∧
      (q.incoming_ = some (m.setFlag MsgFlag.UPGRADE) ∨
        q.incomingLog = (serverParser keepBody).incomingLog ++ [(m, keepAlive)]) ∧
      m.url = some "/hello" ∧ m.httpVersion = some "1.1" := by
  obtain ⟨q, m, ka, hrun, hcase, hurl, _, hver, _⟩ :=
    url_and_version (serverParser keepBody) keepBody rfl ["/he", "llo"] (by simp)
      (getRequest false true)
  refine ⟨q, m, ka, hrun, hcase, ?_, ?_⟩
  · rw [hurl]; decide
  · rw [hver]; decide

/-! ## Trailers -/

theorem run_headerEvents (evs : List HeaderEvent) :
    ∀ p : Parser, run p (evs.map HeaderEvent.toEvent) = runHeaders p evs := by
  induction evs with
  | nil => intro p; rfl
  | cons ev rest ih =>
    intro p
    cases ev with
    | field frag =>
      simp only [List.map_cons, run, runHeaders, HeaderEvent.toEvent, step, headerStep]
      cases Parser.onHeaderField p frag with
      | none => rfl
      | some r => simp [ih]
    | value frag =>
      simp only [List.map_cons, run, runHeaders, HeaderEvent.toEvent, step, headerStep]
      cases Parser.onHeaderValue p frag with
      | none => rfl
      | some r => simp [ih]

theorem trailerCalls_lines (q : Parser) (lines : List (List String × List String))
    (hf : q.fields_ = lines.map (fun _ => none))
    (hv : q.values_ = lines.map (fun _ => none)) :
    trailerCalls q = lines.map (fun _ => Call.addHeaderLine none none) := by
  unfold trailerCalls
  rw [hf, hv]
  apply List.ext_getElem
  · simp
  · intro i h1 h2
    have hi : i < lines.length := by simpa using h2
    simp [Parser.getCPtr, List.getD_eq_getElem?_getD, hi]

theorem endOfStream_calls (m : IncomingMessage) :
    ∃ eos, (Parser.endOfStream m).calls = m.calls ++ eos ∧
      ((eos = [] ∧ (Parser.endOfStream m).emitEndCount = m.emitEndCount) ∨
       (eos = [Call.unsetFlag MsgFlag.READABLE, Call.emitEnd] ∧
        m.hasFlag MsgFlag.UPGRADE = false ∧ m.hasFlag MsgFlag.PAUSED = false ∧
        m.pendings = [] ∧ (Parser.endOfStream m).pendings = [])) := by
  unfold Parser.endOfStream
  cases hu : m.upgrade with
  | true => exact ⟨[], by simp [IncomingMessage.hasFlag, hu]⟩
  | false =>
    cases hp : m.paused with
    | true =>
      exact ⟨[], by simp [IncomingMessage.hasFlag, hu, hp, IncomingMessage.pushPending,
        IncomingMessage.emitEndCount]⟩
    | false =>
      cases hq : m.pendings with
      | nil =>
        refine ⟨[Call.unsetFlag MsgFlag.READABLE, Call.emitEnd], ?_, Or.inr ?_⟩
        · simp [IncomingMessage.hasFlag, hu, hp, hq, IncomingMessage.unsetFlag,
            IncomingMessage.emitEnd, IncomingMessage.writeFlag]
        · simp [IncomingMessage.hasFlag, hu, hp, hq, IncomingMessage.unsetFlag,
            IncomingMessage.emitEnd, IncomingMessage.writeFlag]
      | cons x xs =>
        exact ⟨[], by simp [IncomingMessage.hasFlag, hu, hp, hq, IncomingMessage.pushPending,
          IncomingMessage.emitEndCount]⟩

theorem filterMap_some_fun {α β : Type} (g : α → β) (l : List α) :
    l.filterMap (fun x => some (g x)) = l.map g := by
  induction l with
  | nil => rfl
  | cons x xs ih => simp [List.filterMap_cons, ih]

theorem trailer_slots_flushed (q : Parser) (m : IncomingMessage) (s : Socket)
    (hm : q.incoming_ = some m) (hs : q.socket_ = some s)
    (hf : q.fields_ = []) (hv : q.values_ = [])
    (lines : List (List String × List String))
    (hsplit : ∀ l ∈ lines, l.1 ≠ [] ∧ l.2 ≠ []) :
    ∃ q2 m2 eos,
      run q ((linesEvents lines).map HeaderEvent.toEvent ++ [Event.messageComplete])
        = some q2 ∧
      q2.incoming_ = some m2 ∧
      m2.calls = m.calls ++ [Call.setFlag MsgFlag.COMPLETE]
        ++ lines.map (fun _ => Call.addHeaderLine none none) ++ eos ∧
      (eos = [] ∨ eos = [Call.unsetFlag MsgFlag.READABLE, Call.emitEnd]) ∧
      q2.fields_ = [] ∧ q2.values_ = [] := by
  obtain ⟨X, hX⟩ : ∃ X : Parser, X =
      { q with fields_ := q.fields_ ++ lines.map (fun _ => none),
               values_ := q.values_ ++ lines.map (fun _ => none) } :=
    ⟨_, rfl⟩
  have hheaders : runHeaders q (linesEvents lines) = some X := by
    rw [hX]
    exact runHeaders_lines lines q (by simp [hf, hv]) hsplit
  have hXf : X.fields_ = lines.map (fun _ => none) := by
    rw [hX]; simp [hf]
  have hXv : X.values_ = lines.map (fun _ => none) := by
    rw [hX]; simp [hv]
  have hXm : X.incoming_ = some m := by rw [hX]; exact hm
  have hXs : X.socket_ = some s := by rw [hX]; exact hs
  have hXbal : X.fields_.length = X.values_.length := by rw [hXf, hXv]
  have hcomplete := static_onMessageComplete_eq X m s hXm hXs hXbal
  rw [trailerCalls_lines X lines hXf hXv] at hcomplete
  obtain ⟨eos, hcalls, heos⟩ := endOfStream_calls
    { m with complete := true,
             calls := m.calls ++ Call.setFlag MsgFlag.COMPLETE ::
               lines.map (fun _ => Call.addHeaderLine none none) }
  have heos2 : eos = [] ∨ eos = [Call.unsetFlag MsgFlag.READABLE, Call.emitEnd] := by
    rcases heos with ⟨h, _⟩ | ⟨h, _⟩
    · exact Or.inl h
    · exact Or.inr h
  refine ⟨{ X with
        url_ := (if X.fields_.isEmpty then X.url_ else none),
        fields_ := [], values_ := [],
        incoming_ := some (Parser.endOfStream
          { m with complete := true,
                   calls := m.calls ++ Call.setFlag MsgFlag.COMPLETE ::
                     lines.map (fun _ => Call.addHeaderLine none none) }) },
    _, eos, ?_, rfl, ?_, heos2, rfl, rfl⟩
  · rw [run_append, run_headerEvents, hheaders]
    simp only [Option.some_bind, run, step]
    rw [hcomplete]
    rfl
  · rw [hcalls]; simp

/-- C13. Trailer flush as the code has it. After the headers, the trailer line
`X-Sum: 42` is delivered to an adapter that holds a message, the name in two
fragments, followed by `on_message_complete`. The callback calls
`addHeaderLine` once, with a null name and a null value, not with `X-Sum` and
`42`; afterwards `fields` and `values` are empty. The fragments never reached
the arrays: the macro assigns the new string to the temporary that
`getCPtr<String>(i)` returns. -/
theorem trailer_pairs_lost :
    (run { serverParser keepBody with incoming_ := some (IncomingMessage.create none) }
      ((linesEvents [(["X-", "Sum"], ["42"])]).map HeaderEvent.toEvent
        ++ [Event.messageComplete])).bind
      (fun q => q.incoming_.map fun m => (m.headerLines, q.fields_, q.values_))
      = some ([(none, none)], [], []) := by
  rfl

/-! ## Order of body chunks and end of stream -/

theorem runBodyPhase_queued (s : Socket) (last : Bool) (steps : List (Bool × Buffer)) :
    ∀ (p : Parser) (m : IncomingMessage), p.incoming_ = some m → p.socket_ = some s →
      p.fields_.length = p.values_.length → m.upgrade = false → m.pendings ≠ [] →
      ∃ q m2, runBodyPhase p steps last = some q ∧ q.incoming_ = some m2 ∧
        m2.calls = m.calls ++ Call.setFlag MsgFlag.COMPLETE :: trailerCalls p ∧
        m2.pendings = m.pendings ++ steps.map (fun st => Value.buffer st.2)
          ++ [Value.int 0] := by
  induction steps with
  | nil =>
    intro p m hm hs hbal hup hq
    have hrun := static_onMessageComplete_eq (consumerSetsPaused p last)
      (IncomingMessage.writeFlag m MsgFlag.PAUSED last) s
      (by simp [consumerSetsPaused, hm]) hs hbal
    refine ⟨_, _, by simp only [runBodyPhase]; rw [hrun]; rfl, rfl, ?_, ?_⟩
    · simp [Parser.endOfStream, IncomingMessage.hasFlag, IncomingMessage.writeFlag, hup, hq,
        IncomingMessage.pushPending, trailerCalls, consumerSetsPaused]
    · simp [Parser.endOfStream, IncomingMessage.hasFlag, IncomingMessage.writeFlag, hup, hq,
        IncomingMessage.pushPending]
  | cons st rest ih =>
    intro p m hm hs hbal hup hq
    obtain ⟨b, c⟩ := st
    have hbody := static_onBody_queued (consumerSetsPaused p b)
      (IncomingMessage.writeFlag m MsgFlag.PAUSED b) c
      (by simp [consumerSetsPaused, hm])
      (Or.inr (by simpa [IncomingMessage.writeFlag] using hq))
    obtain ⟨q, m2, hrun, hinc, hcalls, hpend⟩ := ih
      { consumerSetsPaused p b with
        incoming_ := some ((IncomingMessage.writeFlag m MsgFlag.PAUSED b).pushPending
          (Value.buffer c)) }
      ((IncomingMessage.writeFlag m MsgFlag.PAUSED b).pushPending (Value.buffer c))
      rfl hs hbal
      (by simpa [IncomingMessage.writeFlag, IncomingMessage.pushPending] using hup)
      (by simp [IncomingMessage.writeFlag, IncomingMessage.pushPending])
    refine ⟨q, m2, ?_, hinc, ?_, ?_⟩
    · simp only [runBodyPhase]
      rw [hbody]
      exact hrun
    · rw [hcalls]
      simp [IncomingMessage.writeFlag, IncomingMessage.pushPending, trailerCalls,
        consumerSetsPaused]
    · rw [hpend]
      simp [IncomingMessage.writeFlag, IncomingMessage.pushPending]

theorem runBodyPhase_ordered (s : Socket) (last : Bool) (steps : List (Bool × Buffer)) :
    ∀ (p : Parser) (m : IncomingMessage), p.incoming_ = some m → p.socket_ = some s →
      p.fields_.length = p.values_.length → m.upgrade = false → m.pendings = [] →
      ∃ q m2 k eos, runBodyPhase p steps last = some q ∧ q.incoming_ = some m2 ∧
        k ≤ steps.length ∧
        m2.calls = m.calls ++ (steps.take k).map (fun st => Call.emitData st.2)
          ++ Call.setFlag MsgFlag.COMPLETE :: trailerCalls p ++ eos ∧
        ((eos = [] ∧
          m2.pendings = (steps.drop k).map (fun st => Value.buffer st.2) ++ [Value.int 0]) ∨
         (eos = [Call.unsetFlag MsgFlag.READABLE, Call.emitEnd] ∧ k = steps.length ∧
          m2.pendings = [])) := by
  induction steps with
  | nil =>
    intro p m hm hs hbal hup hq
    have hrun := static_onMessageComplete_eq (consumerSetsPaused p last)
      (IncomingMessage.writeFlag m MsgFlag.PAUSED last) s
      (by simp [consumerSetsPaused, hm]) hs hbal
    cases last with
    | true =>
      refine ⟨_, _, 0, [], by simp only [runBodyPhase]; rw [hrun]; rfl, rfl, le_refl _, ?_,
        Or.inl ⟨rfl, ?_⟩⟩
      · simp [Parser.endOfStream, IncomingMessage.hasFlag, IncomingMessage.writeFlag, hup,
          IncomingMessage.pushPending, trailerCalls, consumerSetsPaused]
      · simp [Parser.endOfStream, IncomingMessage.hasFlag, IncomingMessage.writeFlag, hup, hq,
          IncomingMessage.pushPending]
    | false =>
      refine ⟨_, _, 0, [Call.unsetFlag MsgFlag.READABLE, Call.emitEnd],
        by simp only [runBodyPhase]; rw [hrun]; rfl, rfl, le_refl _, ?_, Or.inr ⟨rfl, rfl, ?_⟩⟩
      · simp [Parser.endOfStream, IncomingMessage.hasFlag, IncomingMessage.writeFlag, hup, hq,
          IncomingMessage.unsetFlag, IncomingMessage.emitEnd, trailerCalls, consumerSetsPaused]
      · simp [Parser.endOfStream, IncomingMessage.hasFlag, IncomingMessage.writeFlag, hup, hq,
          IncomingMessage.unsetFlag, IncomingMessage.emitEnd]
  | cons st rest ih =>
    intro p m hm hs hbal hup hq
    obtain ⟨b, c⟩ := st
    cases b with
    | true =>
      have hbody := static_onBody_queued (consumerSetsPaused p true)
        (IncomingMessage.writeFlag m MsgFlag.PAUSED true) c
        (by simp [consumerSetsPaused, hm])
        (Or.inl (by simp [IncomingMessage.writeFlag]))
      obtain ⟨q, m2, hrun, hinc, hcalls, hpend⟩ := runBodyPhase_queued s last rest
        { consumerSetsPaused p true with
          incoming_ := some ((IncomingMessage.writeFlag m MsgFlag.PAUSED true).pushPending
            (Value.buffer c)) }
        ((IncomingMessage.writeFlag m MsgFlag.PAUSED true).pushPending (Value.buffer c))
        rfl hs hbal
        (by simpa [IncomingMessage.writeFlag, IncomingMessage.pushPending] using hup)
        (by simp [IncomingMessage.writeFlag, IncomingMessage.pushPending])
      refine ⟨q, m2, 0, [], ?_, hinc, Nat.zero_le _, ?_, Or.inl ⟨rfl, ?_⟩⟩
      · simp only [runBodyPhase]
        rw [hbody]
        exact hrun
      · rw [hcalls]
        simp [IncomingMessage.writeFlag, IncomingMessage.pushPending, trailerCalls,
          consumerSetsPaused]
      · rw [hpend]
        simp [IncomingMessage.writeFlag, IncomingMessage.pushPending, hq]
    | false =>
      have hbody := static_onBody_emitted (consumerSetsPaused p false)
        (IncomingMessage.writeFlag m MsgFlag.PAUSED false) c
        (by simp [consumerSetsPaused, hm])
        (by simp [IncomingMessage.writeFlag])
        (by simpa [IncomingMessage.writeFlag] using hq)
      obtain ⟨q, m2, k, eos, hrun, hinc, hk, hcalls, hcase⟩ := ih
        { consumerSetsPaused p false with
          incoming_ := some ((IncomingMessage.writeFlag m MsgFlag.PAUSED false).emitData c) }
        ((IncomingMessage.writeFlag m MsgFlag.PAUSED false).emitData c)
        rfl hs hbal
        (by simpa [IncomingMessage.writeFlag, IncomingMessage.emitData] using hup)
        (by simpa [IncomingMessage.writeFlag, IncomingMessage.emitData] using hq)
      refine ⟨q, m2, k + 1, eos, ?_, hinc, by simpa using hk, ?_, ?_⟩
      · simp only [runBodyPhase]
        rw [hbody]
        exact hrun
      · rw [hcalls]
        simp [IncomingMessage.writeFlag, IncomingMessage.emitData, trailerCalls,
          consumerSetsPaused]
      · rcases hcase with ⟨h1, h2⟩ | ⟨h1, h2, h3⟩
        · exact Or.inl ⟨h1, by simpa using h2⟩
        · exact Or.inr ⟨h1, by simp [h2], h3⟩

theorem emittedData_trailerCalls (p : Parser) :
    (trailerCalls p).filterMap (fun c =>
      match c with
      | Call.emitData b => some b
      | _ => none) = [] := by
  simp [trailerCalls, List.filterMap_map, Function.comp_def]

theorem emittedData_map_emitData (steps : List (Bool × Buffer)) :
    (steps.map (fun st => Call.emitData st.2)).filterMap (fun c =>
      match c with
      | Call.emitData b => some b
      | _ => none) = steps.map Prod.snd := by
  induction steps with
  | nil => rfl
  | cons st rest ih => simp [List.filterMap_cons, ih]

theorem count_emitEnd_map_emitData (steps : List (Bool × Buffer)) :
    (steps.map (fun st => Call.emitData st.2)).count Call.emitEnd = 0 := by
  rw [List.count_eq_zero]
  simp

/-- C15. Order of body chunks and end of stream. The adapter holds a message
that is not flagged `UPGRADE` and whose pending queue is empty (socket in
place, accumulators balanced). For every sequence of body chunks, each
delivered by `on_body` after the consumer has set `PAUSED` to an arbitrary
value, followed by `on_message_complete` after one more arbitrary setting of
`PAUSED`, the queue never being drained: every callback succeeds, and there is
a number `k` such that the first `k` chunks, in input order, are exactly the
chunks passed to `emitData`, and either the pending queue holds the remaining
chunks in input order followed by the sentinel 0 and `emitEnd` is not called,
or all chunks were emitted, the queue is empty and `emitEnd` is called once, as
the last call. So once a chunk is queued no later chunk is emitted and
`emitEnd` is not called. -/
theorem body_order (p : Parser) (m : IncomingMessage) (s : Socket)
    (steps : List (Bool × Buffer)) (last : Bool)
    (hm : p.incoming_ = some m) (hs : p.socket_ = some s)
    (hbal : p.fields_.length = p.values_.length)
    (hup : m.hasFlag MsgFlag.UPGRADE = false) (hempty : m.pendings = []) :
    ∃ q m2 k, runBodyPhase p steps last = some q ∧ q.incoming_ = some m2 ∧
      k ≤ steps.length ∧
      m2.emittedData = m.emittedData ++ (steps.take k).map Prod.snd ∧
      ((m2.pendings = (steps.drop k).map (fun st => Value.buffer st.2) ++ [Value.int 0] ∧
        m2.emitEndCount = m.emitEndCount ∧
        m2.calls = m.calls ++ (steps.take k).map (fun st => Call.emitData st.2)
          ++ Call.setFlag MsgFlag.COMPLETE :: trailerCalls p) ∨
       (k = steps.length ∧ m2.pendings = [] ∧
        m2.emitEndCount = m.emitEndCount + 1 ∧
        m2.calls = m.calls ++ steps.map (fun st => Call.emitData st.2)
          ++ Call.setFlag MsgFlag.COMPLETE :: trailerCalls p
          ++ [Call.unsetFlag MsgFlag.READABLE, Call.emitEnd])) := by
  obtain ⟨q, m2, k, eos, hrun, hinc, hk, hcalls, hcase⟩ :=
    runBodyPhase_ordered s last steps p m hm hs hbal hup hempty
  have hcount : (trailerCalls p).count Call.emitEnd = 0 :=
    List.count_eq_zero.mpr (emitEnd_not_mem_trailerCalls p)
  have hc2 : List.count Call.emitEnd
      (List.take k (List.map (fun st : Bool × Buffer => Call.emitData st.2) steps)) = 0 := by
    rw [← List.map_take]
    exact count_emitEnd_map_emitData _
  refine ⟨q, m2, k, hrun, hinc, hk, ?_, ?_⟩
  · rw [IncomingMessage.emittedData, hcalls, IncomingMessage.emittedData]
    simp only [List.filterMap_append, List.filterMap_cons, emittedData_map_emitData,
      emittedData_trailerCalls]
    rcases hcase with ⟨h, _⟩ | ⟨h, _⟩ <;> simp [h]
  · rcases hcase with ⟨h1, h2⟩ | ⟨h1, h2, h3⟩
    · left
      refine ⟨h2, ?_, by rw [hcalls, h1]; simp⟩
      rw [IncomingMessage.emitEndCount, hcalls, h1, IncomingMessage.emitEndCount]
      simp [List.count_append, List.count_cons, hc2, hcount]
    · right
      refine ⟨h2, h3, ?_, by rw [hcalls, h1, h2]; simp⟩
      rw [IncomingMessage.emitEndCount, hcalls, h1, IncomingMessage.emitEndCount]
      simp [List.count_append, List.count_cons, hc2, hcount]

/-- Witness of C15: three chunks, the consumer pausing before the second one and
resuming before the third; the first chunk is emitted, the other two and the
sentinel are queued. -/
theorem body_order_witness :
    ∃ q m2 k,
      runBodyPhase { serverParser keepBody with incoming_ := some (IncomingMessage.create none) }
        [(false, [1]), (true, [2]), (false, [3])] false = some q ∧
      q.incoming_ = some m2 ∧ k ≤ 3 ∧
      m2.emittedData = ([(false, [1]), (true, [2]), (false, [3])].take k).map Prod.snd ∧
      m2.pendings = [Value.buffer [2], Value.buffer [3], Value.int 0] := by
  obtain ⟨q, m2, k, hrun, hinc, hk, hemit, hcase⟩ :=
    body_order { serverParser keepBody with incoming_ := some (IncomingMessage.create none) }
      (IncomingMessage.create none) { readable := true }
      [(false, [1]), (true, [2]), (false, [3])] false rfl rfl rfl rfl rfl
  refine ⟨q, m2, k, hrun, hinc, hk, by simpa [IncomingMessage.emittedData,
    IncomingMessage.create] using hemit, ?_⟩
  have hq : runBodyPhase
      { serverParser keepBody with incoming_ := some (IncomingMessage.create none) }
      [(false, [1]), (true, [2]), (false, [3])] false = some q := hrun
  have hval : (runBodyPhase
      { serverParser keepBody with incoming_ := some (IncomingMessage.create none) }
      [(false, [1]), (true, [2]), (false, [3])] false).bind
        (fun x => x.incoming_.map (fun y => y.pendings))
      = some [Value.buffer [2], Value.buffer [3], Value.int 0] := by rfl
  rw [hq] at hval
  simpa [hinc] using hval

/-! ## Upgraded messages -/

theorem run_bodies (chunks : List Buffer) :
    ∀ (p : Parser) (m : IncomingMessage), p.incoming_ = some m →
      run p (chunks.map Event.body)
        = some { p with incoming_ := (some
            (if (m.paused || m.pendings.length != 0) = true
             then { m with pendings := m.pendings ++ chunks.map Value.buffer }
             else { m with calls := m.calls ++ chunks.map Call.emitData })) } := by
  induction chunks with
  | nil =>
    intro p m hm
    simp [run, ← hm]
  | cons c cs ih =>
    intro p m hm
    simp only [List.map_cons, run, step]
    by_cases hq : m.paused = true ∨ m.pendings ≠ []
    · have hcond : (m.paused || m.pendings.length != 0) = true := by
        rcases hq with hq | hq <;> simp [hq]
      rw [static_onBody_queued p m c hm hq]
      simp only [Option.some_bind]
      rw [ih _ (m.pushPending (Value.buffer c)) rfl]
      have hcond2 : ((m.pushPending (Value.buffer c)).paused ||
          (m.pushPending (Value.buffer c)).pendings.length != 0) = true := by
        simp [IncomingMessage.pushPending]
      rw [if_pos hcond, if_pos hcond2]
      simp [IncomingMessage.pushPending]
    · have hp : m.paused = false := by
        cases h : m.paused
        · rfl
        · exact absurd (Or.inl h) hq
      have hn : m.pendings = [] := by
        by_contra h
        exact hq (Or.inr h)
      have hcond : ¬ (m.paused || m.pendings.length != 0) = true := by simp [hp, hn]
      rw [static_onBody_emitted p m c hm hp hn]
      simp only [Option.some_bind]
      rw [ih _ (m.emitData c) rfl]
      have hcond2 : ¬ ((m.emitData c).paused || (m.emitData c).pendings.length != 0) = true := by
        simp [IncomingMessage.emitData, hp, hn]
      rw [if_neg hcond, if_neg hcond2]
      simp [IncomingMessage.emitData]

theorem populated_fresh (s : Parser) :
    (Parser.populated s).paused = false ∧ (Parser.populated s).pendings = [] ∧
    (Parser.populated s).upgrade = false ∧ (Parser.populated s).emittedData = [] ∧
    Call.emitEnd ∉ (Parser.populated s).calls := by
  refine ⟨?_, ?_, ?_, ?_, ?_⟩
  · unfold Parser.populated
    simp only [addHeaderLines_eq]
    split <;> simp [IncomingMessage.setMethod, IncomingMessage.setStatusCode,
      IncomingMessage.setHttpVersion, IncomingMessage.setUrl, IncomingMessage.create]
  · unfold Parser.populated
    simp only [addHeaderLines_eq]
    split <;> simp [IncomingMessage.setMethod, IncomingMessage.setStatusCode,
      IncomingMessage.setHttpVersion, IncomingMessage.setUrl, IncomingMessage.create]
  · unfold Parser.populated
    simp only [addHeaderLines_eq]
    split <;> simp [IncomingMessage.setMethod, IncomingMessage.setStatusCode,
      IncomingMessage.setHttpVersion, IncomingMessage.setUrl, IncomingMessage.create]
  · rw [IncomingMessage.emittedData, populated_calls]
    simp only [List.filterMap_append, List.filterMap_map]
    split <;> simp [Function.comp_def]
  · rw [populated_calls]
    split <;> simp

/-- C16 (as the code has it). One message for which the tokenizer reports
upgrade at `on_headers_complete` (accumulators balanced, socket in place),
followed by any number of `on_body` callbacks and then `on_message_complete`:
every callback succeeds, the message is flagged `UPGRADE`, `onIncoming` is not
called, `emitEnd` is never called and nothing is queued; but `on_body` does not
look at the `UPGRADE` flag, and the fresh message is not paused and has an
empty queue, so every chunk delivered is passed to `emitData`, in order. With
no `on_body` callback, `emitData` is not called. -/
theorem upgrade_body (p : Parser) (tok : http_parser_t) (s : Socket)
    (chunks : List Buffer) (hup : tok.upgrade = true)
    (hbal : p.fields_.length = p.values_.length) (hs : p.socket_ = some s) :
    ∃ q m2,
      run p ([Event.headersComplete tok] ++ chunks.map Event.body
        ++ [Event.messageComplete]) = some q ∧
      q.incoming_ = some m2 ∧ m2.hasFlag MsgFlag.UPGRADE = true ∧
      q.incomingLog = p.incomingLog ∧
      Call.emitEnd ∉ m2.calls ∧ m2.pendings = [] ∧
      m2.emittedData = chunks ∧ (chunks = [] → m2.emittedData = []) := by
  obtain ⟨S, hS⟩ : ∃ S : Parser, S = Parser.Static.recordHeaders { p with parser_ := tok } :=
    ⟨_, rfl⟩
  have hflag : S.hasFlag Flag.UPGRADE = true := by
    rw [hS, recordHeaders_upgrade]
    simp [hup]
  obtain ⟨hSf, hSv, -, hSs, -, hSlog, -⟩ := recordHeaders_frame { p with parser_ := tok }
  rw [← hS] at hSf hSv hSs hSlog
  obtain ⟨hpaused, hpend, -, hemitted, hnoend⟩ := populated_fresh S
  obtain ⟨M0, hM0⟩ : ∃ M0, M0 = (Parser.populated S).setFlag MsgFlag.UPGRADE := ⟨_, rfl⟩
  have hM0p : M0.paused = false := by rw [hM0]; simpa [IncomingMessage.setFlag,
    IncomingMessage.writeFlag] using hpaused
  have hM0q : M0.pendings = [] := by rw [hM0]; simpa [IncomingMessage.setFlag,
    IncomingMessage.writeFlag] using hpend
  have hM0u : M0.upgrade = true := by rw [hM0]; simp [IncomingMessage.setFlag,
    IncomingMessage.writeFlag]
  have hM0c : M0.calls = (Parser.populated S).calls ++ [Call.setFlag MsgFlag.UPGRADE] := by
    rw [hM0]; simp [IncomingMessage.setFlag]
  have h1 : step p (Event.headersComplete tok)
      = some ({ S with url_ := none, fields_ := [], values_ := [], incoming_ := some M0 }, 0) := by
    simp only [step]
    rw [static_onHeadersComplete_upgraded { p with parser_ := tok } hbal (by rw [← hS]; exact hflag),
      ← hS, ← hM0]
  have hcond : ¬ (M0.paused || M0.pendings.length != 0) = true := by simp [hM0p, hM0q]
  have h2 := run_bodies chunks
    { S with url_ := none, fields_ := [], values_ := [], incoming_ := some M0 } M0 rfl
  rw [if_neg hcond] at h2
  have h3 := static_onMessageComplete_eq
    { S with url_ := none, fields_ := [], values_ := [],
             incoming_ := some { M0 with calls := M0.calls ++ chunks.map Call.emitData } }
    { M0 with calls := M0.calls ++ chunks.map Call.emitData } s rfl (hSs.trans hs) rfl
  obtain ⟨Qf, hQf, hQinc, hQlog⟩ : ∃ Qf : Parser,
      Parser.Static.onMessageComplete
        { S with url_ := none, fields_ := [], values_ := [],
                 incoming_ := some { M0 with calls := M0.calls ++ chunks.map Call.emitData } }
        = some (Qf, 0) ∧
      Qf.incoming_ = some (Parser.endOfStream
        { M0 with complete := true,
                  calls := M0.calls ++ chunks.map Call.emitData
                    ++ [Call.setFlag MsgFlag.COMPLETE] }) ∧
      Qf.incomingLog = S.incomingLog :=
    ⟨_, h3, by simp [trailerCalls], rfl⟩
  refine ⟨Qf, _, ?_, hQinc, ?_, ?_, ?_, ?_, ?_, ?_⟩
  · rw [List.append_assoc, List.singleton_append]
    simp only [run]
    rw [h1]
    simp only [Option.some_bind]
    rw [run_append, h2]
    simp only [Option.some_bind, run, step]
    rw [hQf]
    rfl
  · simp [Parser.endOfStream, IncomingMessage.hasFlag, hM0u]
  · rw [hQlog]; exact hSlog
  · simp [Parser.endOfStream, IncomingMessage.hasFlag, hM0u, hM0c, hnoend, trailerCalls]
  · simp [Parser.endOfStream, IncomingMessage.hasFlag, hM0u, hM0q]
  · have hpe : List.filterMap (fun c => match c with
        | Call.emitData b => some b
        | _ => none) (Parser.populated S).calls = [] := hemitted
    simp [Parser.endOfStream, IncomingMessage.hasFlag, hM0u, hM0c, trailerCalls,
      IncomingMessage.emittedData, List.filterMap_append, hpe, List.filterMap_map,
      Function.comp_def, filterMap_some_fun]
  · intro hnil
    have hpe : List.filterMap (fun c => match c with
        | Call.emitData b => some b
        | _ => none) (Parser.populated S).calls = [] := hemitted
    simp [Parser.endOfStream, IncomingMessage.hasFlag, hM0u, hM0c, trailerCalls,
      IncomingMessage.emittedData, List.filterMap_append, hpe, hnil]

/-- Witness of C16: an upgrade request followed at once by `on_message_complete`. -/
theorem upgrade_body_witness :
    ∃ q m2,
      run (serverParser keepBody)
        ([Event.headersComplete (getRequest true true)] ++ ([] : List Buffer).map Event.body
          ++ [Event.messageComplete]) = some q ∧
      q.incoming_ = some m2 ∧ m2.hasFlag MsgFlag.UPGRADE = true ∧
      q.incomingLog = (serverParser keepBody).incomingLog ∧
      Call.emitEnd ∉ m2.calls ∧ m2.pendings = [] ∧
      m2.emittedData = [] ∧ (([] : List Buffer) = [] → m2.emittedData = []) :=
  upgrade_body (serverParser keepBody) (getRequest true true) { readable := true } []
    rfl rfl rfl

/-- Counterexample to C16 as stated: an upgrade request, one `on_body` callback
with three bytes, then `on_message_complete`. The message is flagged `UPGRADE`
and `emitData` has been called with the chunk. -/
theorem upgrade_body_emitted :
    (getRequest true true).upgrade = true ∧
    (run (serverParser keepBody)
      [Event.messageBegin, Event.headersComplete (getRequest true true),
       Event.body [1, 2, 3], Event.messageComplete]).bind
      (fun q => q.incoming_.map fun m => (m.upgrade, m.emittedData))
      = some (true, [[1, 2, 3]]) := by
  constructor
  · rfl
  · rfl

/-! ## Flags across messages -/

theorem hasFlag_of_flags_eq (p q : Parser) (f : Flag) (h : q.flags_ = p.flags_) :
    q.hasFlag f = p.hasFlag f := by
  simp [Parser.hasFlag, h]

/-- C17 (as the code has it). At every `on_headers_complete` (upstream callback
in place, accumulators balanced) the callback succeeds, and afterwards the
`SHOULD_KEEP_ALIVE` flag is set if and only if the tokenizer reports keep-alive
for this message or the flag was set before, and the `UPGRADE` flag is set if
and only if the tokenizer reports upgrade for this message or the flag was set
before: the flags are added to, never overwritten. No other callback changes
the flags. On an adapter whose flags are all clear, as the constructor leaves
them, the two flags equal the tokenizer's reports. When `onIncoming` is called,
the keep-alive value it is given is that flag: the tokenizer's report or-ed
with the flag of the earlier messages. -/
theorem flags_accumulate (p : Parser) (f : JsFunction)
    (hf : p.onIncoming_ = some f) (hbal : p.fields_.length = p.values_.length) :
    (∃ q r, Parser.Static.onHeadersComplete p = some (q, r) ∧
      q.hasFlag Flag.SHOULD_KEEP_ALIVE
        = (p.parser_.should_keep_alive || p.hasFlag Flag.SHOULD_KEEP_ALIVE) ∧
      q.hasFlag Flag.UPGRADE = (p.parser_.upgrade || p.hasFlag Flag.UPGRADE) ∧
      (p.flags_ = 0 →
        q.hasFlag Flag.SHOULD_KEEP_ALIVE = p.parser_.should_keep_alive ∧
        q.hasFlag Flag.UPGRADE = p.parser_.upgrade) ∧
      ((q.hasFlag Flag.UPGRADE = true ∧ q.incomingLog = p.incomingLog) ∨
       (q.hasFlag Flag.UPGRADE = false ∧
        q.incomingLog = p.incomingLog ++
          [(Parser.populated (Parser.Static.recordHeaders p),
            (p.parser_.should_keep_alive || p.hasFlag Flag.SHOULD_KEEP_ALIVE))]))) ∧
    (∀ (ev : Event) (q : Parser) (r : Int), step p ev = some (q, r) →
      (∀ tok, ev ≠ Event.headersComplete tok) → q.flags_ = p.flags_) ∧
    (∀ (t : http_parser_type) (a b c : Int), (Parser.create t a b c).flags_ = 0) := by
  refine ⟨?_, fun ev q r h hev => (step_frame p q ev r h hev).1, fun _ _ _ _ => rfl⟩
  obtain ⟨q, r, hrun, hcase⟩ := static_onHeadersComplete_filled p f hf hbal
  obtain ⟨hflags, -⟩ := static_onHeadersComplete_frame p q r hrun
  have hka : q.hasFlag Flag.SHOULD_KEEP_ALIVE
      = (p.parser_.should_keep_alive || p.hasFlag Flag.SHOULD_KEEP_ALIVE) := by
    rw [hasFlag_of_flags_eq _ q _ hflags, recordHeaders_keepAlive]
  have hup : q.hasFlag Flag.UPGRADE = (p.parser_.upgrade || p.hasFlag Flag.UPGRADE) := by
    rw [hasFlag_of_flags_eq _ q _ hflags, recordHeaders_upgrade]
  refine ⟨q, r, hrun, hka, hup, ?_, ?_⟩
  · intro h0
    rw [hka, hup]
    simp [Parser.hasFlag, h0]
  · rcases hcase with ⟨h1, _, h3⟩ | ⟨h1, _, h3⟩
    · left
      exact ⟨by rw [hasFlag_of_flags_eq _ q _ hflags]; exact h1, h3⟩
    · right
      refine ⟨by rw [hasFlag_of_flags_eq _ q _ hflags]; exact h1, ?_⟩
      rw [h3, recordHeaders_keepAlive]

/-- Witness of C17: the first message of a new adapter, with keep-alive and
without upgrade. -/
theorem flags_accumulate_witness :
    ∃ q r, Parser.Static.onHeadersComplete
        { serverParser keepBody with parser_ := getRequest false true } = some (q, r) ∧
      q.hasFlag Flag.SHOULD_KEEP_ALIVE = true ∧ q.hasFlag Flag.UPGRADE = false := by
  obtain ⟨q, r, hrun, _, _, hfresh, _⟩ :=
    (flags_accumulate { serverParser keepBody with parser_ := getRequest false true }
      keepBody rfl rfl).1
  exact ⟨q, r, hrun, (hfresh rfl).1, (hfresh rfl).2⟩

/-- Counterexample to C17 as stated: on one adapter, a first request with
keep-alive, then a second request for which the tokenizer reports no keep-alive
and no upgrade. After the second `on_headers_complete` the `SHOULD_KEEP_ALIVE`
flag is still set and `onIncoming` has been given `true` both times. Likewise
the `UPGRADE` flag stays set after an upgrade request followed by a request
without upgrade. -/
theorem flags_not_overwritten :
    (getRequest false false).should_keep_alive = false ∧
    (getRequest false false).upgrade = false ∧
    (run (serverParser keepBody)
      [Event.messageBegin, Event.headersComplete (getRequest false true),
       Event.messageComplete,
       Event.messageBegin, Event.headersComplete (getRequest false false)]).map
      (fun q => (q.hasFlag Flag.SHOULD_KEEP_ALIVE, q.incomingLog.map Prod.snd))
      = some (true, [true, true]) ∧
    (run (serverParser keepBody)
      [Event.messageBegin, Event.headersComplete (getRequest true false),
       Event.messageComplete,
       Event.messageBegin, Event.headersComplete (getRequest false false)]).map
      (fun q => q.hasFlag Flag.UPGRADE) = some true := by
  refine ⟨rfl, rfl, ?_, ?_⟩
  · rfl
  · rfl

/-! ## The `incoming` reference -/

theorem populated_recordHeaders_incoming (p : Parser) (x : Option IncomingMessage) :
    Parser.populated (Parser.Static.recordHeaders { p with incoming_ := x })
      = Parser.populated (Parser.Static.recordHeaders p) := by
  rcases p with ⟨fl, ⟨ty, me, sc, mj, mn, up, ka⟩, url, method, mjv, mnv, st, cap, fs, vs,
    sock, inc, onI, log⟩
  cases up <;> cases ka <;> cases ty <;>
    simp [Parser.Static.recordHeaders, Parser.setFlag, Parser.populated,
      Parser.headerLineCount]

/-- C19 (as the code has it). At every `on_headers_complete` (upstream callback
in place, accumulators balanced) the callback succeeds and `incoming` is set to
a message built from `IncomingMessage::create(socket_)`, whatever `incoming`
held before: the message filled from the adapter, then flagged `UPGRADE` or
handed to `onIncoming`. At `on_message_complete` (message and socket in place)
the callback succeeds and `incoming` is not cleared: it still holds the
message, now with `COMPLETE` set. -/
theorem incoming_lifetime (p : Parser) (f : JsFunction)
    (hf : p.onIncoming_ = some f) (hbal : p.fields_.length = p.values_.length) :
    (∃ q r, Parser.Static.onHeadersComplete p = some (q, r) ∧
      (q.incoming_ = some ((Parser.populated (Parser.Static.recordHeaders p)).setFlag
          MsgFlag.UPGRADE) ∨
       q.incoming_ = some (f.call (Parser.populated (Parser.Static.recordHeaders p))
          ((Parser.Static.recordHeaders p).hasFlag Flag.SHOULD_KEEP_ALIVE)).2)) ∧
    (Parser.populated (Parser.Static.recordHeaders p)).socket = p.socket_ ∧
    (∀ x : Option IncomingMessage,
      Parser.populated (Parser.Static.recordHeaders { p with incoming_ := x })
        = Parser.populated (Parser.Static.recordHeaders p)) ∧
    (∀ (m : IncomingMessage) (s : Socket), p.incoming_ = some m → p.socket_ = some s →
      ∃ q, Parser.Static.onMessageComplete p = some (q, 0) ∧
        q.incoming_ = some (Parser.endOfStream
          { m with complete := true,
                   calls := m.calls ++ Call.setFlag MsgFlag.COMPLETE :: trailerCalls p }) ∧
        q.incoming_ ≠ none) := by
  refine ⟨?_, ?_, fun x => populated_recordHeaders_incoming p x, ?_⟩
  · obtain ⟨q, r, hrun, hcase⟩ := static_onHeadersComplete_filled p f hf hbal
    refine ⟨q, r, hrun, ?_⟩
    rcases hcase with ⟨_, hi, _⟩ | ⟨_, hi, _⟩
    · exact Or.inl hi
    · exact Or.inr hi
  · rw [(populated_url _).2.2]
    exact (recordHeaders_frame p).2.2.2.1
  · intro m s hm hs
    exact ⟨_, static_onMessageComplete_eq p m s hm hs hbal, rfl, by simp⟩

/-- Witness of C19: `on_message_complete` on an adapter that holds a message. -/
theorem incoming_lifetime_witness :
    ∃ q, Parser.Static.onMessageComplete
        { serverParser keepBody with incoming_ := some (IncomingMessage.create none) }
          = some (q, 0) ∧
      q.incoming_ ≠ none := by
  obtain ⟨q, hrun, _, hne⟩ :=
    (incoming_lifetime
      { serverParser keepBody with incoming_ := some (IncomingMessage.create none) }
      keepBody rfl rfl).2.2.2 (IncomingMessage.create none) { readable := true } rfl rfl
  exact ⟨q, hrun, hne⟩

/-- Counterexample to C19 as stated: after a whole message, `on_message_begin`,
`on_headers_complete`, `on_message_complete`, the adapter still holds a
message. -/
theorem incoming_not_cleared :
    (run (serverParser keepBody)
      [Event.messageBegin, Event.headersComplete (getRequest false true),
       Event.messageComplete]).map
      (fun q => q.incoming_.isSome) = some true := by
  rfl

/-! ## Assertions of the accumulator -/

/-- C20. Assertion and index safety of the accumulator. In every adapter state
with `|fields| - |values|` equal to 0 or 1: the assertion of `on_header_field`
(`|fields| == |values| + 1` after the optional push) holds, the slot index it
uses, the old `|values|`, is the last valid index of `fields`, and the callback
succeeds; and if moreover `|fields| >= 1`, the assertion of `on_header_value`
(`|values| == |fields|` after the optional push) holds, the slot index
`|fields| - 1` is the last valid index of `values`, and the callback succeeds.
Consequently, from a balanced state, after every sequence of header callbacks
in which each `on_header_value` has an `on_header_field` before it and which
does not end with a field fragment, `|values| == |fields|` holds: the
assertion of `on_headers_complete` holds (the callback succeeds once an
upstream callback is in place) and so does the one in the trailer part of
`on_message_complete`. -/
theorem accumulator_safety (p : Parser) (frag : String)
    (hinv : p.fields_.length = p.values_.length ∨
      p.fields_.length = p.values_.length + 1) :
    ((if p.fields_.length == p.values_.length then p.fields_ ++ [none]
        else p.fields_).length = p.values_.length + 1 ∧
      p.values_.length <
        (if p.fields_.length == p.values_.length then p.fields_ ++ [none]
          else p.fields_).length ∧
      (∀ j, j < (if p.fields_.length == p.values_.length then p.fields_ ++ [none]
          else p.fields_).length → j ≤ p.values_.length) ∧
      ∃ q, Parser.onHeaderField p frag = some (q, 0)) ∧
    (1 ≤ p.fields_.length →
      (if p.values_.length != p.fields_.length then p.values_ ++ [none]
        else p.values_).length = p.fields_.length ∧
      p.fields_.length - 1 <
        (if p.values_.length != p.fields_.length then p.values_ ++ [none]
          else p.values_).length ∧
      (∀ j, j < (if p.values_.length != p.fields_.length then p.values_ ++ [none]
          else p.values_).length → j ≤ p.fields_.length - 1) ∧
      ∃ q, Parser.onHeaderValue p frag = some (q, 0)) ∧
    (∀ evs : List HeaderEvent, p.fields_.length = p.values_.length →
      ValuesPreceded evs → (∀ g, evs.getLast? ≠ some (HeaderEvent.field g)) →
      ∃ q, runHeaders p evs = some q ∧ q.values_.length = q.fields_.length ∧
        (∀ m, (Parser.flushTrailers q m).isSome = true) ∧
        (∀ f, q.onIncoming_ = some f → (Parser.onHeadersComplete q).isSome = true)) := by
  refine ⟨?_, ?_, ?_⟩
  · obtain ⟨q, hq, _⟩ := onHeaderField_ok p frag hinv
    rcases hinv with h | h
    · simp only [h, beq_self_eq_true, if_true, List.length_append, List.length_singleton]
      exact ⟨trivial, by omega, fun j hj => by omega, q, hq⟩
    · have hc : ¬ (p.fields_.length == p.values_.length) = true := by simp [h]
      simp only [if_neg hc]
      exact ⟨h, by omega, fun j hj => by omega, q, hq⟩
  · intro h1
    obtain ⟨q, hq, _⟩ := onHeaderValue_ok p frag hinv h1
    rcases hinv with h | h
    · have hc : ¬ (p.values_.length != p.fields_.length) = true := by simp [h]
      simp only [if_neg hc]
      exact ⟨h.symm, by omega, fun j hj => by omega, q, hq⟩
    · have hb : (p.values_.length != p.fields_.length) = true := by simp [h]
      simp only [hb, if_true, List.length_append, List.length_singleton]
      exact ⟨by omega, by omega, fun j hj => by omega, q, hq⟩
  · intro evs hbal hpre hlast
    have hhead : ∀ f rest, evs = HeaderEvent.value f :: rest → 1 ≤ p.fields_.length := by
      intro f rest hes
      obtain ⟨j, g, hj, _⟩ := hpre 0 f (by simp [hes])
      omega
    obtain ⟨q, hq, hnil, hqf, hqv⟩ := runHeaders_inv evs p (Or.inl hbal) hhead
    have hqbal : q.values_.length = q.fields_.length := by
      rcases hl : evs.getLast? with _ | ev
      · have hes : evs = [] := by simpa using hl
        rw [hnil hes]; exact hbal.symm
      · cases ev with
        | field g => exact absurd hl (hlast g)
        | value g => exact (hqv g hl).symm
    refine ⟨q, hq, hqbal, ?_, ?_⟩
    · intro m
      rw [flushTrailers_eq q m hqbal.symm]
      rfl
    · intro f hf
      cases hup : q.hasFlag Flag.UPGRADE with
      | true => rw [onHeadersComplete_upgraded q hqbal.symm hup]; rfl
      | false => rw [onHeadersComplete_plain q f hqbal.symm hup hf]; rfl

/-- Witness of C20: a new adapter, and the sequence field, field, value. -/
theorem accumulator_safety_witness :
    ∃ q, runHeaders (Parser.create http_parser_type.HTTP_REQUEST 0 0 0)
        [HeaderEvent.field "Ho", HeaderEvent.field "st", HeaderEvent.value "x"] = some q ∧
      q.values_.length = q.fields_.length := by
  have hpre : ValuesPreceded
      [HeaderEvent.field "Ho", HeaderEvent.field "st", HeaderEvent.value "x"] := by
    intro i frag hi
    refine ⟨0, "Ho", ?_, rfl⟩
    rcases i with _ | i
    · simp at hi
    · omega
  obtain ⟨q, hq, hbal, _⟩ :=
    (accumulator_safety (Parser.create http_parser_type.HTTP_REQUEST 0 0 0) ""
      (Or.inl rfl)).2.2
      [HeaderEvent.field "Ho", HeaderEvent.field "st", HeaderEvent.value "x"] rfl hpre
      (by intro g hg; simp at hg)
  exact ⟨q, hq, hbal⟩

end http
end libnode
